import Mathlib

/-!
Verification of the step-sequence resolution engine of `aurora-unicycler`.

The Python sources are shallowly embedded: float-valued step attributes become
`Rat` (only null/zero-ness of these fields is ever branched on by the engine),
Python `int | str` loop targets become `Int ⊕ String`, raised exceptions become
`Except PyErr`, and in-place mutation of a protocol object is modelled either
by returning the updated value or, where aliasing itself is the property under
study, by an explicit heap of protocol objects.
-/

namespace Unicycler

/-- Kinds of Python exceptions raised by the embedded code. -/
inductive PyErr where
  | valueError (msg : String)
  | typeError (msg : String)
  | runtimeError (msg : String)
  | notImplementedError (msg : String)
  | indexError
  | keyError (key : String)
  | stopIteration
  | assertionError
  deriving Repr, DecidableEq

/-- `SampleParams` (pydantic model): sample name and optional capacity in mAh
(validated `gt=0` at construction). -/
structure SampleParams where
  name : String := "$NAME"
  capacity_mAh : Option Rat := none
  deriving Repr, DecidableEq

/-- `RecordParams` (pydantic model). -/
structure RecordParams where
  current_mA : Option Rat := none
  voltage_V : Option Rat := none
  time_s : Rat
  deriving Repr, DecidableEq

/-- `SafetyParams` (pydantic model). -/
structure SafetyParams where
  max_voltage_V : Option Rat := none
  min_voltage_V : Option Rat := none
  max_current_mA : Option Rat := none
  min_current_mA : Option Rat := none
  max_capacity_mAh : Option Rat := none
  delay_s : Option Rat := none
  deriving Repr, DecidableEq

/-- The tagged union `AnyTechnique` of `_core.py`: every step variant, with the
optional `id` field of the common `Step` base and the variant's own fields.
`Loop.loop_to` is Python `int | str`, embedded as `Int ⊕ String`. -/
inductive AnyTechnique where
  | openCircuitVoltage (id : Option String) (until_time_s : Rat)
  | constantCurrent (id : Option String) (rate_C current_mA until_time_s until_voltage_V : Option Rat)
  | constantVoltage (id : Option String) (voltage_V : Rat) (until_time_s until_rate_C until_current_mA : Option Rat)
  | impedanceSpectroscopy (id : Option String) (amplitude_V amplitude_mA : Option Rat)
      (start_frequency_Hz end_frequency_Hz : Rat) (points_per_decade measures_per_point : Nat)
      (drift_correction : Option Bool)
  | loop (id : Option String) (loop_to : Int ⊕ String) (cycle_count : Nat)
  | tag (id : Option String) (tag : String)
  deriving Repr, DecidableEq

instance : Inhabited AnyTechnique := ⟨.tag none ""⟩

/-- `isinstance(step, Tag)`. -/
def AnyTechnique.isTagStep : AnyTechnique → Bool
  | .tag _ _ => true
  | _ => false

/-- `isinstance(step, Loop)`. -/
def AnyTechnique.isLoopStep : AnyTechnique → Bool
  | .loop _ _ _ => true
  | _ => false

/-- `BaseProtocol` (pydantic model): the protocol container. `unicycler`
(version metadata) carries no engine-relevant data and is omitted. -/
structure BaseProtocol where
  sample : SampleParams := {}
  record : RecordParams
  safety : SafetyParams := {}
  method : List AnyTechnique
  deriving Repr, DecidableEq

/-- Python list read `l[idx]` with an `int` index: negative indices wrap from
the end; out-of-range raises `IndexError` (here: `none`). -/
def pyListGet (l : List Nat) (idx : Int) : Option Nat :=
  if idx < 0 then
    let j : Int := idx + l.length
    if j < 0 then none else l[j.toNat]?
  else l[idx.toNat]?

/-- Python `dict` lookup for a dict built by repeated assignment, modelled as a
cons-list where the most recent binding comes first. -/
def dictFind (d : List (String × Nat)) (k : String) : Option Nat :=
  match d.find? (fun e => e.1 == k) with
  | some e => some e.2
  | none => none

/-- The scanning loop of `_utils.tag_to_indices` (lines 10-38): walks the
method with the original position `i`, the preallocated `indices` list, the
`tags` dict and the executable-step counter `j`; Tag steps are dropped, other
steps are kept, and a Loop's target is rewritten either through the `tags`
dict (symbolic) or through `indices[loop_to - 1]` (numeric, Python list
indexing).  Keeping a step and filtering the removal set at the end is
modelled by consing the kept, rewritten step onto the result of the rest. -/
def tagToIndicesGo : List AnyTechnique → Nat → List Nat → List (String × Nat) → Nat →
    Except PyErr (List AnyTechnique)
  | [], _, _, _, _ => .ok []
  | step :: rest, i, indices, tags, j =>
    match step with
    | .tag _id name =>
      tagToIndicesGo rest (i + 1) (indices.set i (j + 1)) ((name, j + 1) :: tags) j
    | .loop id lt cnt =>
      let indices' := indices.set i (j + 1)
      match lt with
      | .inr tname =>
        match dictFind tags tname with
        | some v =>
          (tagToIndicesGo rest (i + 1) indices' tags (j + 1)).map
            (fun l => .loop id (.inl (v : Int)) cnt :: l)
        | none =>
          .error (.valueError ("Loop step with tag " ++ tname ++
            " does not have a corresponding tag step."))
      | .inl t =>
        match pyListGet indices' (t - 1) with
        | some v =>
          (tagToIndicesGo rest (i + 1) indices' tags (j + 1)).map
            (fun l => .loop id (.inl (v : Int)) cnt :: l)
        | none => .error .indexError
    | s =>
      (tagToIndicesGo rest (i + 1) (indices.set i (j + 1)) tags (j + 1)).map
        (fun l => s :: l)

/-- `_utils.tag_to_indices`: converts tag steps into indices.  The Python
function mutates `protocol.method` in place; the embedding returns the updated
protocol (or the raised exception). -/
def tag_to_indices (protocol : BaseProtocol) : Except PyErr BaseProtocol :=
  (tagToIndicesGo protocol.method 0 (List.replicate protocol.method.length 0) [] 0).map
    (fun m => { protocol with method := m })

/-- The rejection reasons of `BaseProtocol._validate_loops_and_tags`, one per
`raise ValueError` site (the embedding keeps the message data structured
instead of rendering f-strings). -/
inductive StructErr where
  | duplicateTags (dups : List String)
  | onOrAfter (loop_start : Int) (i : Nat)
  | missingTag (name : String)
  | forwards (name : String) (i tag_i : Nat)
  | immediatelyAfter (name : String)
  deriving Repr, DecidableEq

/-- `loop_tags` of `_validate_loops_and_tags`: 0-based index and tag name of
every Loop step whose target is a string. -/
def loopTagsOf (m : List AnyTechnique) : List (Nat × String) :=
  m.enum.filterMap (fun e =>
    match e.2 with
    | .loop _ (.inr s) _ => some (e.1, s)
    | _ => none)

/-- `loop_idx` of `_validate_loops_and_tags`: 0-based index and numeric target
of every Loop step whose target is an int. -/
def loopIdxOf (m : List AnyTechnique) : List (Nat × Int) :=
  m.enum.filterMap (fun e =>
    match e.2 with
    | .loop _ (.inl t) _ => some (e.1, t)
    | _ => none)

/-- `tags` of `_validate_loops_and_tags`: 0-based index and name of every Tag
step. -/
def tagsOf (m : List AnyTechnique) : List (Nat × String) :=
  m.enum.filterMap (fun e =>
    match e.2 with
    | .tag _ s => some (e.1, s)
    | _ => none)

/-- `tags_rev = {v: k for k, v in tags.items()}`: maps a tag name to its index
(with repeated assignment, the last occurrence wins). -/
def tagsRev (m : List AnyTechnique) (name : String) : Option Nat :=
  ((tagsOf m).reverse.find? (fun e => e.2 == name)).map (·.1)

/-- The `for i, loop_start in loop_idx.items()` check: an indexed loop may not
go "on or after" its own (0-based) enumerate index. -/
def checkLoopIdx : List (Nat × Int) → Except StructErr Unit
  | [] => .ok ()
  | (i, t) :: rest =>
    if t ≥ (i : Int) then .error (.onOrAfter t i) else checkLoopIdx rest

/-- The `for i, loop_tag in loop_tags.items()` check: the tag must exist, lie
strictly before the loop, and not immediately before it. -/
def checkLoopTags (trev : String → Option Nat) : List (Nat × String) → Except StructErr Unit
  | [] => .ok ()
  | (i, name) :: rest =>
    match trev name with
    | none => .error (.missingTag name)
    | some tag_i =>
      if i ≤ tag_i then .error (.forwards name i tag_i)
      else if i = tag_i + 1 then .error (.immediatelyAfter name)
      else checkLoopTags trev rest

/-- `BaseProtocol._validate_loops_and_tags` (model validator run at
construction): duplicate-tag check, then the numeric-loop check, then the
symbolic-loop checks, in source order. -/
def validate_loops_and_tags (m : List AnyTechnique) : Except StructErr Unit :=
  let tag_list := (tagsOf m).map (·.2)
  if tag_list.Nodup then
    match checkLoopIdx (loopIdxOf m) with
    | .error e => .error e
    | .ok _ => checkLoopTags (tagsRev m) (loopTagsOf m)
  else .error (.duplicateTags ((tag_list.filter (fun t => tag_list.count t > 1)).dedup))

/-- Interval collection of `_utils.check_for_intersecting_loops`: for every
Loop at 0-based `i`, the pair `(int(step.loop_to), i + 1)`.  `int()` on a tag
name raises `ValueError`. -/
def collectLoopIntervals : List AnyTechnique → Nat → Except PyErr (List (Int × Int))
  | [], _ => .ok []
  | s :: rest, i =>
    match s with
    | .loop _ (.inl t) _ => (collectLoopIntervals rest (i + 1)).map (fun l => (t, (i : Int) + 1) :: l)
    | .loop _ (.inr _) _ => .error (.valueError "invalid literal for int() with base 10")
    | _ => collectLoopIntervals rest (i + 1)

/-- Python tuple comparison `(a1, a2) <= (b1, b2)`, the order used by
`loops.sort()`. -/
def pyTupleLe (a b : Int × Int) : Prop :=
  a.1 < b.1 ∨ (a.1 = b.1 ∧ a.2 ≤ b.2)

instance : DecidableRel pyTupleLe := fun a b => by unfold pyTupleLe; exact inferInstance

instance : IsTotal (Int × Int) pyTupleLe := ⟨by intro a b; unfold pyTupleLe; omega⟩

instance : IsTrans (Int × Int) pyTupleLe := ⟨by intro a b c; unfold pyTupleLe; omega⟩

/-- Inner `for j in range(i + 1, len(loops))` scan of
`check_for_intersecting_loops`, with the `break` once loop `j` starts after
loop `i` ends. -/
def intersectScanInner (a : Int × Int) : List (Int × Int) → Bool
  | [] => false
  | b :: rest =>
    if b.1 > a.2 then false
    else if (a.1 < b.1 && a.2 < b.2) || (a.1 > b.1 && a.2 > b.2) then true
    else intersectScanInner a rest

/-- Outer `for i in range(len(loops))` scan of `check_for_intersecting_loops`
over the sorted interval list. -/
def intersectScan : List (Int × Int) → Bool
  | [] => false
  | a :: rest => intersectScanInner a rest || intersectScan rest

/-- `_utils.check_for_intersecting_loops`: sorts the loop intervals
lexicographically (`loops.sort()`; since `pyTupleLe` is antisymmetric the
sorted permutation is unique, so any sorting algorithm matches Python's) and
raises `ValueError` on a partially overlapping (non-nested, non-disjoint)
pair. -/
def check_for_intersecting_loops (protocol : BaseProtocol) : Except PyErr Unit :=
  match collectLoopIntervals protocol.method 0 with
  | .error e => .error e
  | .ok loops =>
    if intersectScan (List.insertionSort pyTupleLe loops) then
      .error (.valueError "Protocol has intersecting loops.")
    else .ok ()

/-- Python truthiness of an optional float: `None` and `0.0` are falsy. -/
def pyTruthy (v : Option Rat) : Bool :=
  match v with
  | none => false
  | some q => q != 0

/-- `getattr(s, "rate_C", None)`: only `ConstantCurrent` has the attribute. -/
def getattrRateC : AnyTechnique → Option Rat
  | .constantCurrent _ r _ _ _ => r
  | _ => none

/-- `getattr(s, "until_rate_C", None)`: only `ConstantVoltage` has it. -/
def getattrUntilRateC : AnyTechnique → Option Rat
  | .constantVoltage _ _ _ ur _ => ur
  | _ => none

/-- `_utils.validate_capacity_c_rates`: if any step uses a (truthy) C-rate, a
(truthy) sample capacity must be set. -/
def validate_capacity_c_rates (protocol : BaseProtocol) : Except PyErr Unit :=
  if !pyTruthy protocol.sample.capacity_mAh &&
      protocol.method.any (fun s => pyTruthy (getattrRateC s) || pyTruthy (getattrUntilRateC s)) then
    .error (.valueError "Sample capacity must be set if using C-rate steps.")
  else .ok ()

/-- One entry of the `loops: dict[int, dict]` table of
`to_pybamm_experiment`: `{"goto": ..., "n": ..., "n_done": ...}`. -/
structure LoopEntry where
  goto : Int
  n : Nat
  n_done : Nat
  deriving Repr, DecidableEq

/-- `i in loops` / `loops[i]` on the loop table (keys are unique). -/
def loopsFind (loops : List (Int × LoopEntry)) (i : Int) : Option LoopEntry :=
  (loops.find? (fun e => e.1 == i)).map (·.2)

/-- The body of one `while` iteration of `_formats.pybamm._explode_loops`
after the append: the new loop table (counters of loops strictly inside the
jumped-over range reset to 0, the taken loop's counter bumped) and the new
program counter. -/
def explodeStep (loops : List (Int × LoopEntry)) (i : Int) : List (Int × LoopEntry) × Int :=
  match loopsFind loops i with
  | some d =>
    if d.n_done < d.n then
      let reset := loops.map (fun (e : Int × LoopEntry) =>
        if e.1 < i && e.1 ≥ d.goto then (e.1, { e.2 with n_done := 0 }) else e)
      let bumped := reset.map (fun (e : Int × LoopEntry) =>
        if e.1 == i then (e.1, { e.2 with n_done := e.2.n_done + 1 }) else e)
      (bumped, d.goto)
    else (loops, i + 1)
  | none => (loops, i + 1)

/-- The runaway-expansion error of `_explode_loops`. -/
def runawayErr : PyErr :=
  .runtimeError
    "Over 10000 steps in protocol to_pybamm_experiment(), likely a loop definition error."

/-- The `while i < end_idx` loop of `_formats.pybamm._explode_loops`: append
the program counter, step via `explodeStep`, and raise `runawayErr` once more
than 10000 iterations have run.  The recursion is carried by a structural
`fuel` argument standing for `10001 - total_itr` so that the function
evaluates inside the kernel; `explodeGo_unfold` below proves that the wrapper
satisfies the source loop's recurrence exactly.  The Python list append is
modelled by consing and a final reverse. -/
def explodeGoF (end_idx : Nat) : Nat → List (Int × LoopEntry) → Int → Nat → List Int →
    Except PyErr (List Int)
  | 0, _, i, _, acc =>
    if i < (end_idx : Int) then .error runawayErr else .ok acc.reverse
  | fuel + 1, loops, i, total_itr, acc =>
    if i < (end_idx : Int) then
      let next := explodeStep loops i
      if total_itr + 1 > 10000 then .error runawayErr
      else explodeGoF end_idx fuel next.1 next.2 (total_itr + 1) (i :: acc)
    else .ok acc.reverse

/-- The `while` loop of `_explode_loops` with the source's own state
variables. -/
def explodeGo (end_idx : Nat) (loops : List (Int × LoopEntry)) (i : Int) (total_itr : Nat)
    (acc : List Int) : Except PyErr (List Int) :=
  explodeGoF end_idx (10001 - total_itr) loops i total_itr acc

/-- `_formats.pybamm._explode_loops`: run the simulation from `i = 0`, then
drop the loop positions themselves (`i not in loops`; the mutation of the
table during the run never changes its keys, so filtering against the input
table is equivalent). -/
def explode_loops (loops : List (Int × LoopEntry)) (end_idx : Nat) : Except PyErr (List Int) :=
  (explodeGo end_idx loops 0 0 []).map
    (fun raw => raw.filter (fun i => (loopsFind loops i).isNone))

/-- The `step` discriminator literal of each variant. -/
def AnyTechnique.stepName : AnyTechnique → String
  | .openCircuitVoltage _ _ => "open_circuit_voltage"
  | .constantCurrent _ _ _ _ _ => "constant_current"
  | .constantVoltage _ _ _ _ _ => "constant_voltage"
  | .impedanceSpectroscopy _ _ _ _ _ _ _ _ => "impedance_spectroscopy"
  | .loop _ _ _ => "loop"
  | .tag _ _ => "tag"

/-- The `for i, step in enumerate(protocol.method)` pass of
`to_pybamm_experiment` (lines 92-113): builds the list of PyBaMM strings (an
empty placeholder for loops) and the loop table.  The vendor string rendering
(`_stringify_constant_current` etc., pure float formatting) is abstracted by
the `render` parameter. -/
def pybammScanGo (render : AnyTechnique → String) :
    List AnyTechnique → Nat → Except PyErr (List String × List (Int × LoopEntry))
  | [], _ => .ok ([], [])
  | s :: rest, i =>
    match s with
    | .constantCurrent _ _ _ _ _ =>
      (pybammScanGo render rest (i + 1)).map (fun r => (render s :: r.1, r.2))
    | .constantVoltage _ _ _ _ _ =>
      (pybammScanGo render rest (i + 1)).map (fun r => (render s :: r.1, r.2))
    | .openCircuitVoltage _ _ =>
      (pybammScanGo render rest (i + 1)).map (fun r => (render s :: r.1, r.2))
    | .loop _ (.inr _) _ => .error .assertionError
    | .loop _ (.inl t) cnt =>
      (pybammScanGo render rest (i + 1)).map
        (fun r => ("" :: r.1, ((i : Int), ⟨t - 1, cnt, 0⟩) :: r.2))
    | s =>
      .error (.typeError ("to_pybamm_experiment does not support step type: " ++ s.stepName))

/-- A heap of protocol objects; a reference is an index.  Used to state the
non-mutation contract: exporters `model_copy` the argument and mutate only the
copy. -/
abbrev Heap := List BaseProtocol

/-- Python list indexing (general element type). -/
def pyIndex {α : Type} (l : List α) (idx : Int) : Option α :=
  if idx < 0 then
    let j : Int := idx + l.length
    if j < 0 then none else l[j.toNat]?
  else l[idx.toNat]?

/-- `[pybamm_experiment[i] for i in exploded_step_indices]`. -/
def pySelect (strs : List String) : List Int → Except PyErr (List String)
  | [] => .ok []
  | i :: rest =>
    match pyIndex strs i with
    | some s => (pySelect strs rest).map (fun l => s :: l)
    | none => .error .indexError

/-- `_formats.pybamm.to_pybamm_experiment`, over the heap: deep-copy the
argument, resolve tags and check loops on the copy (mutating only the copy's
heap cell), then build and explode the loop table. -/
def to_pybamm_experiment_ref (render : AnyTechnique → String) (h : Heap) (r : Nat) :
    Heap × Except PyErr (List String) :=
  match h.get? r with
  | none => (h, .error .indexError)
  | some p =>
    let rc := h.length
    let h1 := h ++ [p]
    match tag_to_indices p with
    | .error e => (h1, .error e)
    | .ok p1 =>
      let h2 := h1.set rc p1
      match check_for_intersecting_loops p1 with
      | .error e => (h2, .error e)
      | .ok _ =>
        match pybammScanGo render p1.method 0 with
        | .error e => (h2, .error e)
        | .ok sl =>
          match explode_loops sl.2 sl.1.length with
          | .error e => (h2, .error e)
          | .ok idxs => (h2, pySelect sl.1 idxs)

/-- A task of `_formats.battinfo._group_iterative_tasks`: either a plain step
number or an iterative workflow `(cycle_count, body)`. -/
inductive BTask where
  | single (n : Nat)
  | iter (count : Nat) (body : List BTask)

/-- The backward scan of `_formats.battinfo._group_iterative_tasks` over
positions `i-1, ..., 0`, carrying the `skip_above` watermark (`None` at the
top; note Python's `if skip_above` is also false when the watermark is the
integer 0) and the accumulated task list (Python appends then reverses; the
cons-accumulator is already the reversed list, so no final reverse is
needed).  A Loop step takes the slice `[start_i:end_i]` of both lists and
recurses on it, as the source's recursive call does. -/
def groupGoF : Nat → List Nat → List AnyTechnique → Nat → Option Int → List BTask →
    Except PyErr (List BTask)
  | _, _, _, 0, _, tasks => .ok tasks
  | 0, _, _, _ + 1, _, tasks => .ok tasks
  | fuel + 1, nums, method, i' + 1, skip, tasks =>
    let sn := nums.getD i' 0
    if (match skip with
        | some s => !(s == 0) && ((sn : Int) ≥ s)
        | none => false) then
      groupGoF fuel nums method i' skip tasks
    else
      match method.getD i' default with
      | .loop _ (.inr _) _ => .error .assertionError
      | .loop _ (.inl t) cnt =>
        let start_step : Int := t - 1
        match nums.findIdx? (fun n => (n : Int) == start_step) with
        | none => .error .stopIteration
        | some start_i =>
          let end_i := i'
          let nums' := (nums.take end_i).drop start_i
          let method' := (method.take end_i).drop start_i
          match groupGoF fuel nums' method' method'.length none [] with
          | .error e => .error e
          | .ok sub => groupGoF fuel nums method i' (some start_step) (.iter cnt sub :: tasks)
      | _ => groupGoF fuel nums method i' skip (.single sn :: tasks)

/-- The backward scan with the source's own state: processes positions
`i - 1, ..., 0`.  (`groupGoF`'s fuel is only an upper bound on `i` that makes
the nested recursion structural; `groupGo_unfold` below shows the wrapper
satisfies the source's recurrence whenever the fuel suffices.) -/
def groupGo (nums : List Nat) (method : List AnyTechnique) (i : Nat) (skip : Option Int)
    (tasks : List BTask) : Except PyErr (List BTask) :=
  groupGoF i nums method i skip tasks

mutual

/-- The step numbers of a task tree's leaves in document order, each loop body
taken once (repeat counts ignored). -/
def BTask.leaves : BTask → List Nat
  | .single n => [n]
  | .iter _ body => BTask.leavesAll body

/-- `BTask.leaves` over a task list, concatenated in order. -/
def BTask.leavesAll : List BTask → List Nat
  | [] => []
  | t :: ts => BTask.leaves t ++ BTask.leavesAll ts

end

/-- `_formats.battinfo._group_iterative_tasks` (the `zip(..., strict=True)`
raises when the two lists disagree in length). -/
def group_iterative_tasks (nums : List Nat) (method : List AnyTechnique) :
    Except PyErr (List BTask) :=
  if nums.length = method.length then groupGo nums method method.length none []
  else .error (.valueError "zip() argument lengths differ")

/-- `_formats.battinfo.to_battinfo_jsonld`, over the heap: deep-copy, an
optional capacity override on the copy, tag resolution and the nesting check
on the copy, then the iterative grouping.  The JSON-LD assembly
(`_recursive_battinfo_build`, a pure reader) is abstracted by `build`. -/
def to_battinfo_jsonld_ref {α : Type}
    (build : List BTask → List AnyTechnique → Option Rat → Except PyErr α)
    (h : Heap) (r : Nat) (capacity_mAh : Option Rat) : Heap × Except PyErr α :=
  match h.get? r with
  | none => (h, .error .indexError)
  | some p =>
    let rc := h.length
    let p0 := if pyTruthy capacity_mAh then
        { p with sample := { p.sample with capacity_mAh := capacity_mAh } }
      else p
    let h1 := (h ++ [p]).set rc p0
    match tag_to_indices p0 with
    | .error e => (h1, .error e)
    | .ok p1 =>
      let h2 := h1.set rc p1
      match check_for_intersecting_loops p1 with
      | .error e => (h2, .error e)
      | .ok _ =>
        match group_iterative_tasks (List.range p1.method.length) p1.method with
        | .error e => (h2, .error e)
        | .ok order => (h2, build order p1.method p1.sample.capacity_mAh)

/-- Python truthiness of an optional string (`None` and `""` are falsy). -/
def pyTruthyStr (v : Option String) : Bool :=
  match v with
  | none => false
  | some s => s != ""

/-- `_formats.tomato.to_tomato_mpg2`, over the heap: deep-copy, optional
sample-name/capacity overrides on the copy, the `$NAME` guard, the capacity
pre-flight check, tag resolution and the nesting check on the copy, then the
per-step rendering loop (abstracted by `render`, which may raise, as the
source's `match` does for unsupported steps). -/
def to_tomato_mpg2_ref {τ : Type} (render : RecordParams → AnyTechnique → Except PyErr τ)
    (h : Heap) (r : Nat) (sample_name : Option String) (capacity_mAh : Option Rat) :
    Heap × Except PyErr (List τ) :=
  match h.get? r with
  | none => (h, .error .indexError)
  | some p =>
    let rc := h.length
    let s0 := if pyTruthyStr sample_name then
        { p.sample with name := sample_name.getD p.sample.name }
      else p.sample
    let s1 := if pyTruthy capacity_mAh then { s0 with capacity_mAh := capacity_mAh } else s0
    let p0 := { p with sample := s1 }
    let h1 := (h ++ [p]).set rc p0
    if p0.sample.name == "" || p0.sample.name == "$NAME" then
      (h1, .error (.valueError ("If using blank sample name or $NAME placeholder, " ++
        "a sample name must be provided in this function.")))
    else
      match validate_capacity_c_rates p0 with
      | .error e => (h1, .error e)
      | .ok _ =>
        match tag_to_indices p0 with
        | .error e => (h1, .error e)
        | .ok p1 =>
          let h2 := h1.set rc p1
          match check_for_intersecting_loops p1 with
          | .error e => (h2, .error e)
          | .ok _ => (h2, p1.method.mapM (render p0.record))

instance {ε α : Type} [DecidableEq ε] [DecidableEq α] : DecidableEq (Except ε α) := fun x y =>
  match x, y with
  | .ok a, .ok b => if h : a = b then .isTrue (by rw [h]) else .isFalse (by simp [h])
  | .error a, .error b => if h : a = b then .isTrue (by rw [h]) else .isFalse (by simp [h])
  | .ok _, .error _ => .isFalse (by simp)
  | .error _, .ok _ => .isFalse (by simp)

/-! ### Specification-side helpers

Closed-form descriptions of the resolver's state, used to reason about
`tag_to_indices` by induction.  They are not translations of source code. -/

/-- The number of executable (non-Tag) steps among the first `i` entries: the
value of the counter `j` of `tag_to_indices` after processing them. -/
def execCnt (m : List AnyTechnique) (i : Nat) : Nat :=
  ((m.take i).filter (fun s => !s.isTagStep)).length

/-- The value the `tags` dict of `tag_to_indices` associates to name `a` after
processing the first `i` steps: the anchor of the most recent earlier tag of
that name. -/
def tagAnchorAt (m : List AnyTechnique) : Nat → String → Option Nat
  | 0, _ => none
  | i + 1, a =>
    match m[i]? with
    | some (.tag _ name) => if name = a then some (execCnt m i + 1) else tagAnchorAt m i a
    | _ => tagAnchorAt m i a

/-- The value `indices[t - 1]` reads (with Python index semantics) while the
loop at position `i` is being processed: entries `0..i` hold
`execCnt m k + 1`, later entries still hold the initial `0`. -/
def specRead (m : List AnyTechnique) (i : Nat) (t : Int) : Option Nat :=
  let n := m.length
  let idx : Int := t - 1
  let j : Int := if idx < 0 then idx + n else idx
  if 0 ≤ j ∧ j < (n : Int) then
    some (if j.toNat ≤ i then execCnt m j.toNat + 1 else 0)
  else none

/-- The rewritten form of the non-Tag step sitting at original position `ℓ`
(meaningful on the resolver's success path, where the reads are defined). -/
def rewriteAt (m : List AnyTechnique) (ℓ : Nat) : AnyTechnique → AnyTechnique
  | .loop id (.inl t) c => .loop id (.inl ((specRead m ℓ t).getD 0 : Nat)) c
  | .loop id (.inr a) c => .loop id (.inl ((tagAnchorAt m ℓ a).getD 0 : Nat)) c
  | s => s

/-- Closed form of `tag_to_indices`: process positions `i, i+1, ...` of `m`
(`rem` bounds the remaining length), dropping tags and rewriting loops. -/
def resolveSpecAux (m : List AnyTechnique) : Nat → Nat → Except PyErr (List AnyTechnique)
  | 0, _ => .ok []
  | rem + 1, i =>
    match m[i]? with
    | none => .ok []
    | some (.tag _ _) => resolveSpecAux m rem (i + 1)
    | some (.loop id (.inr a) cnt) =>
      match tagAnchorAt m i a with
      | some v => (resolveSpecAux m rem (i + 1)).map (fun l => .loop id (.inl (v : Nat)) cnt :: l)
      | none =>
        .error (.valueError ("Loop step with tag " ++ a ++
          " does not have a corresponding tag step."))
    | some (.loop id (.inl t) cnt) =>
      match specRead m i t with
      | some v => (resolveSpecAux m rem (i + 1)).map (fun l => .loop id (.inl (v : Nat)) cnt :: l)
      | none => .error .indexError
    | some s => (resolveSpecAux m rem (i + 1)).map (fun l => s :: l)

/-- The value `resolveSpecAux` returns on success: tags dropped, loops
rewritten through `rewriteAt`. -/
def resolvedOf (m : List AnyTechnique) : Nat → Nat → List AnyTechnique
  | 0, _ => []
  | rem + 1, i =>
    match m[i]? with
    | none => []
    | some (.tag _ _) => resolvedOf m rem (i + 1)
    | some s => rewriteAt m i s :: resolvedOf m rem (i + 1)

/-- No Tag steps remain in the sequence. -/
def noTagSteps (m : List AnyTechnique) : Bool :=
  m.all (fun s => !s.isTagStep)

/-- Every Loop step carries a numeric (integer) target `≥ 1`, as the `Loop`
field validator of `_core.py` guarantees for constructed protocols. -/
def positiveTargets (m : List AnyTechnique) : Bool :=
  m.all (fun s =>
    match s with
    | .loop _ (.inl t) _ => decide (1 ≤ t)
    | _ => true)

/-- Every Loop step's target is symbolic — i.e. there are no string targets
left (together with `noTagSteps` this is the claim's notion of a resolved
sequence). -/
def intTargetsOnly (m : List AnyTechnique) : Bool :=
  m.all (fun s =>
    match s with
    | .loop _ (.inr _) _ => false
    | _ => true)

/-- A resolved sequence with bounded targets: no Tag steps, and every Loop at
0-based index `k` has an integer target `t` with `1 ≤ t ≤ k + 1` (its own
1-based position). -/
def resolvedBounded (m : List AnyTechnique) : Bool :=
  m.enum.all (fun e =>
    !e.2.isTagStep &&
    (match e.2 with
     | .loop _ (.inl t) _ => decide (1 ≤ t) && decide (t ≤ (e.1 : Int) + 1)
     | .loop _ (.inr _) _ => false
     | _ => true))

/-- The 1-based position a non-Tag step at original 0-based index `j` gets in
the resolved sequence. -/
def newPos (m : List AnyTechnique) (j : Nat) : Nat :=
  execCnt m (j + 1)

/-- The loop intervals `(loop_to, position)` of a sequence starting the
position count at `i` (total counterpart of `collectLoopIntervals`). -/
def intervalsAux : List AnyTechnique → Nat → List (Int × Int)
  | [], _ => []
  | s :: rest, i =>
    match s with
    | .loop _ (.inl t) _ => (t, (i : Int) + 1) :: intervalsAux rest (i + 1)
    | _ => intervalsAux rest (i + 1)

/-- The loop intervals `(int(loop_to), position)` of a tag-free resolved
sequence, as collected by `check_for_intersecting_loops`. -/
def intervalsOf (m : List AnyTechnique) : List (Int × Int) :=
  intervalsAux m 0

/-- Partial overlap of two closed intervals: `b` starts inside (or at the end
of) `a` and ends strictly after it — the configuration the nesting checker
must reject. -/
def crosses (a b : Int × Int) : Prop :=
  a.1 < b.1 ∧ b.1 ≤ a.2 ∧ a.2 < b.2

/-- The index of the first non-Tag entry of a list. -/
def firstNonTagIdx : List AnyTechnique → Option Nat
  | [] => none
  | s :: rest => if s.isTagStep then (firstNonTagIdx rest).map (· + 1) else some 0

/-- The position of the first executable (non-Tag) step strictly after
position `i`. -/
def firstNonTagAfter (m : List AnyTechnique) (i : Nat) : Option Nat :=
  (firstNonTagIdx (m.drop (i + 1))).map (fun k => i + 1 + k)

/-! ### Concrete protocols used as test inputs -/

/-- Scenario A of the specification:
`[Tag("a"), Rest(1), Rest(1), Loop(target="a", repeat=3)]`. -/
def scenarioA : BaseProtocol :=
  { record := { time_s := 1 },
    method := [.tag none "a", .openCircuitVoltage none 1, .openCircuitVoltage none 1,
      .loop none (.inr "a") 3] }

/-- Scenario E of the specification (the `test_pybamm_bomb_protection` input):
five nested tags, each wrapped in a repeat-100 loop. -/
def scenarioE : BaseProtocol :=
  { record := { time_s := 1 },
    method := [.tag none "A", .tag none "B", .tag none "C", .tag none "D", .tag none "E",
      .openCircuitVoltage none 1,
      .loop none (.inr "E") 100, .loop none (.inr "D") 100, .loop none (.inr "C") 100,
      .loop none (.inr "B") 100, .loop none (.inr "A") 100] }

/-- The Scenario E loop table with symbolic `n_done` counters. -/
def eTable (a b c d e : Nat) : List (Int × LoopEntry) :=
  [(1, ⟨0, 100, a⟩), (2, ⟨0, 100, b⟩), (3, ⟨0, 100, c⟩), (4, ⟨0, 100, d⟩), (5, ⟨0, 100, e⟩)]

/-- Scenario E after tag resolution: `[Rest, Loop(1,100) × 5]`. -/
def scenarioEResolved : List AnyTechnique :=
  [.openCircuitVoltage none 1, .loop none (.inl 1) 100, .loop none (.inl 1) 100,
    .loop none (.inl 1) 100, .loop none (.inl 1) 100, .loop none (.inl 1) 100]

/-- The loop table `to_pybamm_experiment` builds for the resolved Scenario E
sequence `[Rest, Loop(1,100) × 5]`. -/
def scenarioELoops : List (Int × LoopEntry) :=
  [(1, ⟨0, 100, 0⟩), (2, ⟨0, 100, 0⟩), (3, ⟨0, 100, 0⟩), (4, ⟨0, 100, 0⟩), (5, ⟨0, 100, 0⟩)]

/-- A numeric loop whose target `3` is the position immediately preceding the
loop (1-based position 4): the validator's numeric check rejects it. -/
def methodTargetPredecessor : List AnyTechnique :=
  [.openCircuitVoltage none 1, .openCircuitVoltage none 1, .openCircuitVoltage none 1,
    .loop none (.inl 3) 3]

/-- A protocol accepted by construction whose numeric loop target points at a
Tag step that is followed by no executable step before the loop itself. -/
def tagLandingProtocol : BaseProtocol :=
  { record := { time_s := 1 },
    method := [.openCircuitVoltage none 1, .tag none "a", .tag none "b",
      .loop none (.inl 2) 5] }

/-- A tag-free, integer-target sequence (in the sense of claim C6's premise)
that tag resolution nevertheless rewrites: the forward target `2` reads an
index entry that is still `0`. -/
def forwardLoopProtocol : BaseProtocol :=
  { record := { time_s := 1 },
    method := [.loop none (.inl 2) 2, .openCircuitVoltage none 1] }

/-- A protocol whose loop target `3` points at the trailing Tag step: the
numeric rewrite reads an index entry that is still `0`, and resolving the
(tag-free, integer-target) result once more changes it again. -/
def resolveTwiceProtocol : BaseProtocol :=
  { record := { time_s := 1 },
    method := [.openCircuitVoltage none 1, .loop none (.inl 3) 2, .tag none "x"] }

/-- `resolveTwiceProtocol` after one application of `tag_to_indices`. -/
def resolveOnceMethod : List AnyTechnique :=
  [.openCircuitVoltage none 1, .loop none (.inl 0) 2]

/-- Scenario A after tag resolution: `[Rest, Rest, Loop(1, 3)]`. -/
def scenarioAResolved : BaseProtocol :=
  { record := { time_s := 1 },
    method := [.openCircuitVoltage none 1, .openCircuitVoltage none 1,
      .loop none (.inl 1) 3] }

/-- The resolved sequence `[Rest, Loop(1, 3)]`: a loop whose target is
position 1, the input on which the battinfo grouper's `skip_above = 0`
watermark is falsy. -/
def loopToFirstMethod : List AnyTechnique :=
  [.openCircuitVoltage none 1, .loop none (.inl 1) 3]

/-- A protocol with no capacity and one C-rate step. -/
def cRateNoCapacityProtocol : BaseProtocol :=
  { record := { time_s := 1 },
    method := [.constantCurrent none (some 1) none (some 3600) none] }

/-!  ### Theorems  -/

/-- C1: the spec, the `Loop` docstring ("a cycle_count of 3 means 3 cycles in
total will be performed") and the repository's own test
(`test_pybamm_loops` asserts `len == 123` for `cycle_count=123`) all say the
loop body runs `cycle_count` times, so Scenario A must unroll to a trace of
length 6.  The code's jump condition `n_done < n` jumps `cycle_count` times
and therefore runs the body `cycle_count + 1` times: the full
`to_pybamm_experiment` pipeline on Scenario A returns 8 rest steps, not 6. -/
theorem c1_unroll_runs_body_once_too_often :
    (to_pybamm_experiment_ref (fun s => s.stepName) [scenarioA] 0).2 =
      .ok (List.replicate 8 "open_circuit_voltage") ∧
    explode_loops [(2, ⟨0, 3, 0⟩)] 3 = .ok [0, 1, 0, 1, 0, 1, 0, 1] := by
  exact ⟨by decide, by decide⟩

/-- C5 (counter-evidence): `[Rest, Loop(1, 3)]` is resolved and passes the
nesting check, yet `_group_iterative_tasks` returns `[0, (3, [0])]`, whose
flattened leaves are `[0, 0]`: step 0 appears both as a top-level leaf and
inside the loop node, because `if skip_above` is falsy for the watermark `0`
produced by a loop targeting position 1.  The document-order leaf list of the
code's own intent (and of the spec) would be `[0]`. -/
theorem c5_group_duplicates_leaves :
    check_for_intersecting_loops { record := { time_s := 1 }, method := loopToFirstMethod } =
      .ok () ∧
    (group_iterative_tasks [0, 1] loopToFirstMethod).map BTask.leavesAll = .ok [0, 0] ∧
    [(0 : Nat), 0] ≠ [0] := by
  refine ⟨by decide, by rfl, by decide⟩

/-- C2 (counterexample): `tagLandingProtocol` passes every construction-time
check, yet after resolution its loop sits at 1-based position 2 with target 2
— the target is *equal* to, not strictly below, the loop's own new
position. -/
theorem c2_counterexample_target_not_strictly_below :
    validate_loops_and_tags tagLandingProtocol.method = .ok () ∧
    positiveTargets tagLandingProtocol.method = true ∧
    (tag_to_indices tagLandingProtocol).map (fun p => p.method) =
      .ok [.openCircuitVoltage none 1, .loop none (.inl 2) 5] ∧
    ¬((2 : Int) < 2) := by
  refine ⟨by decide, by decide, by decide, by decide⟩

/-- C4 (counterexample): the loop at 0-based index 3 (1-based position 4) with
numeric target 3 — the position immediately preceding it, which the claim says
is accepted — is rejected by `_validate_loops_and_tags` with the
"on or after" error, because the code compares the 1-based target against the
0-based enumerate index (`loop_start >= i`). -/
theorem c4_counterexample_rejects_predecessor_target :
    validate_loops_and_tags methodTargetPredecessor = .error (.onOrAfter 3 3) ∧
    (3 : Int) < 4 := by
  exact ⟨by decide, by decide⟩

/-- C6 (counterexample): the claim's idempotence fails without the
construction-time validity premise.  Resolving `resolveTwiceProtocol`
succeeds and yields the tag-free, integer-target sequence
`[Rest, Loop(0, 2)]`; resolving that output again succeeds but rewrites the
loop target to 2 (Python's `indices[-1]` wraps around), so
`resolveTags (resolveTags seq) ≠ resolveTags seq`. -/
theorem c6_counterexample_not_idempotent :
    (tag_to_indices resolveTwiceProtocol).map (fun p => p.method) = .ok resolveOnceMethod ∧
    noTagSteps resolveOnceMethod = true ∧
    intTargetsOnly resolveOnceMethod = true ∧
    (tag_to_indices { resolveTwiceProtocol with method := resolveOnceMethod }).map
        (fun p => p.method) =
      .ok [.openCircuitVoltage none 1, .loop none (.inl 2) 2] ∧
    [AnyTechnique.openCircuitVoltage none 1, .loop none (.inl 2) 2] ≠ resolveOnceMethod := by
  refine ⟨by decide, by decide, by decide, by decide, by decide⟩

theorem pyTruthy_eq_true {v : Option Rat} : pyTruthy v = true ↔ ∃ q, v = some q ∧ q ≠ 0 := by
  cases v with
  | none => simp [pyTruthy]
  | some q => simp [pyTruthy, bne_iff_ne]

/-- C9: the capacity pre-flight check raises exactly when the capacity is
unset (protocol construction forbids a zero capacity, so Python falsiness
means `None`) and some step carries a non-null, non-zero `rate_C` or
`until_rate_C`; otherwise it returns without error. -/
theorem c9_missing_capacity_iff (p : BaseProtocol)
    (hcap : p.sample.capacity_mAh = none ∨ ∃ q, p.sample.capacity_mAh = some q ∧ 0 < q) :
    validate_capacity_c_rates p =
        .error (.valueError "Sample capacity must be set if using C-rate steps.") ↔
      p.sample.capacity_mAh = none ∧ ∃ s ∈ p.method,
        (∃ r, getattrRateC s = some r ∧ r ≠ 0) ∨ (∃ r, getattrUntilRateC s = some r ∧ r ≠ 0) := by
  have key : (!pyTruthy p.sample.capacity_mAh &&
      p.method.any fun s => pyTruthy (getattrRateC s) || pyTruthy (getattrUntilRateC s)) = true ↔
      (p.sample.capacity_mAh = none ∧ ∃ s ∈ p.method,
        (∃ r, getattrRateC s = some r ∧ r ≠ 0) ∨
          (∃ r, getattrUntilRateC s = some r ∧ r ≠ 0)) := by
    rw [Bool.and_eq_true, List.any_eq_true]
    constructor
    · rintro ⟨hnt, s, hs, hor⟩
      have hnone : p.sample.capacity_mAh = none := by
        rcases hcap with h | ⟨q, hq, hq0⟩
        · exact h
        · exfalso
          have : pyTruthy p.sample.capacity_mAh = true :=
            pyTruthy_eq_true.mpr ⟨q, hq, fun h => by simp [h] at hq0⟩
          simp [this] at hnt
      refine ⟨hnone, s, hs, ?_⟩
      have hor' : pyTruthy (getattrRateC s) = true ∨ pyTruthy (getattrUntilRateC s) = true := by
        simpa using hor
      rcases hor' with h | h
      · exact .inl (pyTruthy_eq_true.mp h)
      · exact .inr (pyTruthy_eq_true.mp h)
    · rintro ⟨hnone, s, hs, hor⟩
      refine ⟨by simp [hnone, pyTruthy], s, hs, ?_⟩
      rcases hor with ⟨r, hr, hr0⟩ | ⟨r, hr, hr0⟩
      · simp [pyTruthy_eq_true.mpr ⟨r, hr, hr0⟩]
      · simp [pyTruthy_eq_true.mpr ⟨r, hr, hr0⟩]
  rw [validate_capacity_c_rates]
  by_cases hcond : (!pyTruthy p.sample.capacity_mAh &&
      p.method.any fun s => pyTruthy (getattrRateC s) || pyTruthy (getattrUntilRateC s)) = true
  · rw [if_pos hcond]
    exact iff_of_true rfl (key.mp hcond)
  · rw [if_neg hcond]
    exact iff_of_false (by simp) (fun hr => hcond (key.mpr hr))

/-- C9 witness: a protocol whose capacity is unset and whose single step uses
`rate_C` makes the check raise. -/
theorem c9_missing_capacity_iff_witness :
    validate_capacity_c_rates cRateNoCapacityProtocol =
      .error (.valueError "Sample capacity must be set if using C-rate steps.") :=
  (c9_missing_capacity_iff cRateNoCapacityProtocol (.inl rfl)).mpr
    ⟨rfl, .constantCurrent none (some 1) none (some 3600) none, by
      show _ ∈ [AnyTechnique.constantCurrent none (some 1) none (some 3600) none]
      exact List.mem_singleton.mpr rfl,
      .inl ⟨1, rfl, one_ne_zero⟩⟩

theorem checkLoopIdx_ok_iff (l : List (Nat × Int)) :
    checkLoopIdx l = .ok () ↔ ∀ p ∈ l, p.2 < (p.1 : Int) := by
  induction l with
  | nil => simp [checkLoopIdx]
  | cons hd tl ih =>
    obtain ⟨i, t⟩ := hd
    by_cases h : t ≥ (i : Int)
    · simp only [checkLoopIdx, if_pos h]
      constructor
      · intro hcontr; cases hcontr
      · intro hall
        exact absurd (hall (i, t) (List.mem_cons_self _ _)) (by simpa using h)
    · simp only [checkLoopIdx, if_neg h, ih]
      constructor
      · intro hall p hp
        rcases List.mem_cons.mp hp with rfl | hp'
        · simpa using lt_of_not_ge h
        · exact hall p hp'
      · intro hall p hp
        exact hall p (List.mem_cons_of_mem _ hp)

theorem checkLoopIdx_error_shape (l : List (Nat × Int)) (e : StructErr)
    (h : checkLoopIdx l = .error e) : ∃ i t, (i, t) ∈ l ∧ (i : Int) ≤ t ∧ e = .onOrAfter t i := by
  induction l with
  | nil => cases h
  | cons hd tl ih =>
    obtain ⟨i, t⟩ := hd
    by_cases hge : t ≥ (i : Int)
    · simp only [checkLoopIdx, if_pos hge] at h
      cases h
      exact ⟨i, t, List.mem_cons_self _ _, hge, rfl⟩
    · simp only [checkLoopIdx, if_neg hge] at h
      rcases ih h with ⟨i', t', hm, hle, he⟩
      exact ⟨i', t', List.mem_cons_of_mem _ hm, hle, he⟩

theorem checkLoopIdx_error_of_mem (l : List (Nat × Int))
    (h : ∃ p ∈ l, (p.1 : Int) ≤ p.2) : ∃ t i, checkLoopIdx l = .error (.onOrAfter t i) := by
  induction l with
  | nil => rcases h with ⟨p, hp, -⟩; cases hp
  | cons hd tl ih =>
    obtain ⟨i, t⟩ := hd
    by_cases hge : t ≥ (i : Int)
    · exact ⟨t, i, by simp only [checkLoopIdx, if_pos hge]⟩
    · rcases h with ⟨p, hp, hle⟩
      rcases List.mem_cons.mp hp with rfl | hp'
      · exact absurd hle hge
      · rcases ih ⟨p, hp', hle⟩ with ⟨t', i', h'⟩
        exact ⟨t', i', by simp only [checkLoopIdx, if_neg hge]; exact h'⟩

theorem checkLoopTags_no_onOrAfter (trev : String → Option Nat) (l : List (Nat × String))
    (t : Int) (i : Nat) : checkLoopTags trev l ≠ .error (.onOrAfter t i) := by
  induction l with
  | nil => simp [checkLoopTags]
  | cons hd tl ih =>
    obtain ⟨j, name⟩ := hd
    simp only [checkLoopTags]
    match htv : trev name with
    | none => simp
    | some tag_i =>
      by_cases h1 : j ≤ tag_i
      · simp [if_pos h1]
      · by_cases h2 : j = tag_i + 1
        · simp [if_neg h1, if_pos h2]
        · simpa [if_neg h1, if_neg h2] using ih

/-- C4 (amended): with no duplicate tags, `_validate_loops_and_tags` rejects
with the "on or after" error iff some Loop's numeric target `t` satisfies
`t ≥ i` for the loop's own **0-based** index `i` — i.e. iff `t` is on or after
the position *immediately preceding* the loop (1-based position − 1).  In
particular `t = position − 1` is rejected, and any `t` strictly before that is
accepted by this check, exactly as `test_forward_loop` asserts. -/
theorem c4_on_or_after_iff (m : List AnyTechnique)
    (hnodup : ((tagsOf m).map Prod.snd).Nodup) :
    (∃ t i, validate_loops_and_tags m = .error (.onOrAfter t i)) ↔
      ∃ p ∈ loopIdxOf m, ((p.1 : Int) ≤ p.2) := by
  unfold validate_loops_and_tags
  rw [if_pos hnodup]
  constructor
  · rintro ⟨t, i, h⟩
    cases hi : checkLoopIdx (loopIdxOf m) with
    | ok u =>
      rw [hi] at h
      exact absurd h (checkLoopTags_no_onOrAfter _ _ _ _)
    | error e =>
      rw [hi] at h
      simp only [Except.error.injEq] at h
      rcases checkLoopIdx_error_shape _ _ hi with ⟨i', t', hm, hle, -⟩
      exact ⟨(i', t'), hm, hle⟩
  · intro h
    rcases checkLoopIdx_error_of_mem _ h with ⟨t, i, hi⟩
    exact ⟨t, i, by rw [hi]⟩

/-- C4 witness for the amended iff: the sequence whose loop (0-based index 3)
targets position 3 satisfies the right-hand side, so validation rejects with
the "on or after" error. -/
theorem c4_on_or_after_iff_witness :
    ∃ t i, validate_loops_and_tags methodTargetPredecessor = .error (.onOrAfter t i) :=
  (c4_on_or_after_iff methodTargetPredecessor (by decide)).mpr
    ⟨(3, 3), by decide, by decide⟩

theorem collect_eq_intervalsAux {m : List AnyTechnique} (hint : intTargetsOnly m = true) :
    ∀ i, collectLoopIntervals m i = .ok (intervalsAux m i) := by
  induction m with
  | nil => intro i; rfl
  | cons s rest ih =>
    intro i
    have hint' : intTargetsOnly rest = true := by
      simp only [intTargetsOnly, List.all_cons, Bool.and_eq_true] at hint
      exact hint.2
    cases s with
    | loop id lt cnt =>
      cases lt with
      | inl t => simp [collectLoopIntervals, intervalsAux, ih hint', Except.map]
      | inr a => simp [intTargetsOnly, List.all_cons] at hint
    | openCircuitVoltage id u => simp [collectLoopIntervals, intervalsAux, ih hint', Except.map]
    | constantCurrent id a b c d =>
      simp [collectLoopIntervals, intervalsAux, ih hint', Except.map]
    | constantVoltage id a b c d =>
      simp [collectLoopIntervals, intervalsAux, ih hint', Except.map]
    | impedanceSpectroscopy id a b c d e f g =>
      simp [collectLoopIntervals, intervalsAux, ih hint', Except.map]
    | tag id name => simp [collectLoopIntervals, intervalsAux, ih hint', Except.map]

theorem pyTupleLe_fst {a b : Int × Int} (h : pyTupleLe a b) : a.1 ≤ b.1 := by
  have h' : a.1 < b.1 ∨ (a.1 = b.1 ∧ a.2 ≤ b.2) := h
  omega

theorem intersectScanInner_true {a : Int × Int} {l : List (Int × Int)}
    (h : intersectScanInner a l = true) :
    ∃ b ∈ l, b.1 ≤ a.2 ∧ ((a.1 < b.1 ∧ a.2 < b.2) ∨ (b.1 < a.1 ∧ b.2 < a.2)) := by
  induction l with
  | nil => cases h
  | cons b rest ih =>
    by_cases hbr : b.1 > a.2
    · rw [intersectScanInner, if_pos hbr] at h; cases h
    · rw [intersectScanInner, if_neg hbr] at h
      by_cases hcond : ((a.1 < b.1 && a.2 < b.2) || (a.1 > b.1 && a.2 > b.2)) = true
      · refine ⟨b, List.mem_cons_self _ _, le_of_not_gt hbr, ?_⟩
        simp only [Bool.or_eq_true, Bool.and_eq_true, decide_eq_true_eq] at hcond
        rcases hcond with ⟨h1, h2⟩ | ⟨h1, h2⟩
        · exact .inl ⟨h1, h2⟩
        · exact .inr ⟨h1, h2⟩
      · rw [if_neg hcond] at h
        rcases ih h with ⟨b', hb', hle, hv⟩
        exact ⟨b', List.mem_cons_of_mem _ hb', hle, hv⟩

theorem intersectScan_sound {l : List (Int × Int)} (hs : List.Sorted pyTupleLe l)
    (h : intersectScan l = true) : ∃ a ∈ l, ∃ b ∈ l, crosses a b := by
  induction l with
  | nil => cases h
  | cons a rest ih =>
    rcases Bool.or_eq_true_iff.mp h with hin | hrest
    · rcases intersectScanInner_true hin with ⟨b, hb, hle, hv⟩
      have hab : a.1 ≤ b.1 := pyTupleLe_fst (List.rel_of_sorted_cons hs b hb)
      rcases hv with ⟨h1, h2⟩ | ⟨h1, h2⟩
      · exact ⟨a, List.mem_cons_self _ _, b, List.mem_cons_of_mem _ hb, h1, hle, h2⟩
      · exact absurd hab (by omega)
    · rcases ih hs.of_cons hrest with ⟨x, hx, y, hy, hc⟩
      exact ⟨x, List.mem_cons_of_mem _ hx, y, List.mem_cons_of_mem _ hy, hc⟩

theorem intersectScanInner_complete {a b : Int × Int} {l : List (Int × Int)}
    (hs : List.Sorted pyTupleLe l) (hb : b ∈ l) (hc : crosses a b) :
    intersectScanInner a l = true := by
  induction l with
  | nil => cases hb
  | cons c rest ih =>
    obtain ⟨hab, hba, haend⟩ := hc
    have hcb1 : c.1 ≤ b.1 := by
      rcases List.mem_cons.mp hb with rfl | hb'
      · exact le_refl _
      · exact pyTupleLe_fst (List.rel_of_sorted_cons hs b hb')
    have hnb : ¬c.1 > a.2 := by omega
    rw [intersectScanInner, if_neg hnb]
    rcases List.mem_cons.mp hb with rfl | hb'
    · have hcnd : ((a.1 < b.1 && a.2 < b.2) || (a.1 > b.1 && a.2 > b.2)) = true := by
        simp only [Bool.or_eq_true, Bool.and_eq_true, decide_eq_true_eq]
        exact .inl ⟨hab, haend⟩
      rw [if_pos hcnd]
    · by_cases hcond : ((a.1 < c.1 && a.2 < c.2) || (a.1 > c.1 && a.2 > c.2)) = true
      · rw [if_pos hcond]
      · rw [if_neg hcond]
        exact ih hs.of_cons hb'

theorem intersectScan_complete {l : List (Int × Int)} {a b : Int × Int}
    (hs : List.Sorted pyTupleLe l) (ha : a ∈ l) (hb : b ∈ l) (hc : crosses a b) :
    intersectScan l = true := by
  induction l with
  | nil => cases ha
  | cons x rest ih =>
    rcases List.mem_cons.mp ha with rfl | ha'
    · have hb' : b ∈ rest := by
        rcases List.mem_cons.mp hb with rfl | h
        · exact absurd hc.1 (lt_irrefl _)
        · exact h
      exact Bool.or_eq_true_iff.mpr (.inl (intersectScanInner_complete hs.of_cons hb' hc))
    · have hb' : b ∈ rest := by
        rcases List.mem_cons.mp hb with rfl | h
        · exfalso
          have := pyTupleLe_fst (List.rel_of_sorted_cons hs a ha')
          exact absurd hc.1 (by omega)
        · exact h
      exact Bool.or_eq_true_iff.mpr (.inr (ih hs.of_cons ha' hb'))

/-- C3: for a tag-free, integer-target sequence the nesting check raises
exactly when some pair of loop intervals `[target, loop_position]` partially
overlaps — one starts (strictly or at an endpoint) inside the other and ends
strictly after it.  Disjoint, equal, and properly nested pairs never cause
rejection, and the sorted-scan early exit misses no violating pair. -/
theorem c3_intersecting_iff (p : BaseProtocol) (hint : intTargetsOnly p.method = true) :
    check_for_intersecting_loops p = .error (.valueError "Protocol has intersecting loops.") ↔
      ∃ a ∈ intervalsOf p.method, ∃ b ∈ intervalsOf p.method, crosses a b := by
  have hcol := collect_eq_intervalsAux hint 0
  have hsorted : List.Sorted pyTupleLe (List.insertionSort pyTupleLe (intervalsOf p.method)) :=
    List.sorted_insertionSort pyTupleLe _
  unfold check_for_intersecting_loops
  rw [hcol]
  show (if intersectScan (List.insertionSort pyTupleLe (intervalsOf p.method)) then _ else _) = _ ↔ _
  by_cases hscan : intersectScan (List.insertionSort pyTupleLe (intervalsOf p.method)) = true
  · rw [if_pos hscan]
    refine iff_of_true rfl ?_
    rcases intersectScan_sound hsorted hscan with ⟨a, ha, b, hb, hc⟩
    exact ⟨a, (List.mem_insertionSort pyTupleLe).mp ha, b,
      (List.mem_insertionSort pyTupleLe).mp hb, hc⟩
  · rw [if_neg hscan]
    refine iff_of_false (by simp) ?_
    rintro ⟨a, ha, b, hb, hc⟩
    exact hscan (intersectScan_complete hsorted ((List.mem_insertionSort pyTupleLe).mpr ha)
      ((List.mem_insertionSort pyTupleLe).mpr hb) hc)

/-- C3 witness: the resolved sequence `[Rest, Rest, Rest, Loop(1), Rest,
Loop(3)]` has intervals `(1, 4)` and `(3, 6)`, which cross, so the check
raises. -/
theorem c3_intersecting_iff_witness :
    check_for_intersecting_loops
        { record := { time_s := 1 },
          method := [.openCircuitVoltage none 1, .openCircuitVoltage none 1,
            .openCircuitVoltage none 1, .loop none (.inl 1) 2, .openCircuitVoltage none 1,
            .loop none (.inl 3) 2] } =
      .error (.valueError "Protocol has intersecting loops.") :=
  (c3_intersecting_iff _ (by decide)).mpr
    ⟨(1, 4), by decide, (3, 6), by decide, by decide, by decide, by decide⟩

theorem explodeGoF_ok_length (end_idx : Nat) :
    ∀ (fuel : Nat) (loops : List (Int × LoopEntry)) (i : Int) (total : Nat) (acc : List Int)
      (r : List Int), explodeGoF end_idx fuel loops i total acc = .ok r →
      r.length ≤ acc.length + (10000 - total) := by
  intro fuel
  induction fuel with
  | zero =>
    intro loops i total acc r h
    rw [explodeGoF] at h
    by_cases hi : i < (end_idx : Int)
    · rw [if_pos hi] at h; cases h
    · rw [if_neg hi] at h
      cases h
      simp
  | succ fuel ih =>
    intro loops i total acc r h
    rw [explodeGoF] at h
    by_cases hi : i < (end_idx : Int)
    · rw [if_pos hi] at h
      by_cases hguard : total + 1 > 10000
      · rw [if_pos hguard] at h; cases h
      · rw [if_neg hguard] at h
        have := ih _ _ _ _ _ h
        simp only [List.length_cons] at this
        omega
    · rw [if_neg hi] at h
      cases h
      simp

theorem explodeStep_e0 (a b c d e : Nat) :
    explodeStep (eTable a b c d e) 0 = (eTable a b c d e, 1) := by
  simp [explodeStep, loopsFind, eTable, List.find?]

theorem explodeStep_e1 (a b c d e : Nat) :
    explodeStep (eTable a b c d e) 1 =
      if a < 100 then (eTable (a + 1) b c d e, 0) else (eTable a b c d e, 2) := by
  by_cases h : a < 100 <;>
    simp [explodeStep, loopsFind, eTable, List.find?, h]

theorem explodeStep_e2 (a b c d e : Nat) :
    explodeStep (eTable a b c d e) 2 =
      if b < 100 then (eTable 0 (b + 1) c d e, 0) else (eTable a b c d e, 3) := by
  by_cases h : b < 100 <;>
    simp [explodeStep, loopsFind, eTable, List.find?, h]

theorem explodeStep_e3 (a b c d e : Nat) :
    explodeStep (eTable a b c d e) 3 =
      if c < 100 then (eTable 0 0 (c + 1) d e, 0) else (eTable a b c d e, 4) := by
  by_cases h : c < 100 <;>
    simp [explodeStep, loopsFind, eTable, List.find?, h]

theorem explodeStep_e4 (a b c d e : Nat) :
    explodeStep (eTable a b c d e) 4 =
      if d < 100 then (eTable 0 0 0 (d + 1) e, 0) else (eTable a b c d e, 5) := by
  by_cases h : d < 100 <;>
    simp [explodeStep, loopsFind, eTable, List.find?, h]

theorem explodeStep_e5 (a b c d e : Nat) :
    explodeStep (eTable a b c d e) 5 =
      if e < 100 then (eTable 0 0 0 0 (e + 1), 0) else (eTable a b c d e, 6) := by
  by_cases h : e < 100 <;>
    simp [explodeStep, loopsFind, eTable, List.find?, h]

/-- Between two arrivals at the outermost Scenario E loop at least 101 steps
pass (its inner neighbour is reset and must recount to 100), so the run can
never exit before the iteration ceiling: the simulation always raises
`runawayErr`. -/
theorem scenarioE_run_raises :
    ∀ (fuel a b c d e : Nat) (i : Int) (total : Nat) (acc : List Int),
      0 ≤ i → i ≤ 5 →
      (i = 5 → 100 ≤ d) →
      101 * e + d ≤ total →
      fuel + total = 10001 →
      explodeGoF 6 fuel (eTable a b c d e) i total acc = .error runawayErr := by
  intro fuel
  induction fuel with
  | zero =>
    intro a b c d e i total acc h0 h5 hd hpot hsum
    rw [explodeGoF, if_pos (by omega : i < (6 : Nat))]
  | succ fuel ih =>
    intro a b c d e i total acc h0 h5 hd hpot hsum
    rw [explodeGoF, if_pos (by omega : i < (6 : Nat))]
    by_cases hguard : total + 1 > 10000
    · rw [if_pos hguard]
    · rw [if_neg hguard]
      interval_cases i
      · rw [explodeStep_e0]
        exact ih a b c d e 1 (total + 1) _ (by omega) (by omega) (by omega) (by omega) (by omega)
      · rw [explodeStep_e1]
        by_cases ha : a < 100
        · rw [if_pos ha]
          exact ih (a + 1) b c d e 0 (total + 1) _ (by omega) (by omega) (by omega) (by omega)
            (by omega)
        · rw [if_neg ha]
          exact ih a b c d e 2 (total + 1) _ (by omega) (by omega) (by omega) (by omega) (by omega)
      · rw [explodeStep_e2]
        by_cases hb : b < 100
        · rw [if_pos hb]
          exact ih 0 (b + 1) c d e 0 (total + 1) _ (by omega) (by omega) (by omega) (by omega)
            (by omega)
        · rw [if_neg hb]
          exact ih a b c d e 3 (total + 1) _ (by omega) (by omega) (by omega) (by omega) (by omega)
      · rw [explodeStep_e3]
        by_cases hc : c < 100
        · rw [if_pos hc]
          exact ih 0 0 (c + 1) d e 0 (total + 1) _ (by omega) (by omega) (by omega) (by omega)
            (by omega)
        · rw [if_neg hc]
          exact ih a b c d e 4 (total + 1) _ (by omega) (by omega) (by omega) (by omega) (by omega)
      · rw [explodeStep_e4]
        by_cases hdlt : d < 100
        · rw [if_pos hdlt]
          exact ih 0 0 0 (d + 1) e 0 (total + 1) _ (by omega) (by omega) (by omega) (by omega)
            (by omega)
        · rw [if_neg hdlt]
          exact ih a b c d e 5 (total + 1) _ (by omega) (by omega) (by omega) (by omega) (by omega)
      · rw [explodeStep_e5]
        by_cases he : e < 100
        · rw [if_pos he]
          exact ih 0 0 0 0 (e + 1) 0 (total + 1) _ (by omega) (by omega) (by omega)
            (by omega) (by omega)
        · exfalso
          have hdge : 100 ≤ d := hd rfl
          omega

/-- C8: the unroller is total and guarded.  (a) Whenever `_explode_loops`
returns a trace, at most 10000 simulated steps were taken, so the trace has at
most 10000 entries.  (b) Scenario E — five nested repeat-100 loops, exactly
the resolved sequence and loop table `to_pybamm_experiment` builds from the
`test_pybamm_bomb_protection` input — always raises the runaway-expansion
error instead of producing a trace. -/
theorem c8_runaway_guard_and_termination :
    (∀ (loops : List (Int × LoopEntry)) (end_idx : Nat) (r : List Int),
      explode_loops loops end_idx = .ok r → r.length ≤ 10000) ∧
    (tag_to_indices scenarioE).map (fun p => p.method) = .ok scenarioEResolved ∧
    pybammScanGo (fun s => s.stepName) scenarioEResolved 0 =
      .ok (["open_circuit_voltage", "", "", "", "", ""], scenarioELoops) ∧
    explode_loops scenarioELoops 6 = .error runawayErr := by
  refine ⟨?_, by decide, by decide, ?_⟩
  · intro loops end_idx r h
    unfold explode_loops explodeGo at h
    cases hraw : explodeGoF end_idx (10001 - 0) loops 0 0 [] with
    | error e => rw [hraw] at h; cases h
    | ok raw =>
      rw [hraw] at h
      simp only [Except.map, Except.ok.injEq] at h
      have hlen := explodeGoF_ok_length end_idx _ _ _ _ _ _ hraw
      simp only [List.length_nil, Nat.zero_add, Nat.sub_zero] at hlen
      calc r.length ≤ raw.length := by rw [← h]; exact List.length_filter_le _ _
        _ ≤ 10000 := hlen
  · have hrun := scenarioE_run_raises 10001 0 0 0 0 0 0 0 [] (by omega) (by omega)
      (by omega) (by omega) (by omega)
    unfold explode_loops explodeGo
    have : scenarioELoops = eTable 0 0 0 0 0 := by rfl
    rw [this, hrun]
    rfl

/-- C8 witness: the Scenario A loop table returns a trace, and the theorem
bounds its length by 10000. -/
theorem c8_runaway_guard_and_termination_witness :
    ([(0 : Int), 1, 0, 1, 0, 1, 0, 1] : List Int).length ≤ 10000 :=
  c8_runaway_guard_and_termination.1 [(2, ⟨0, 3, 0⟩)] 3 _ (by decide)

theorem execCnt_zero (m : List AnyTechnique) : execCnt m 0 = 0 := rfl

theorem execCnt_succ {m : List AnyTechnique} {i : Nat} {s : AnyTechnique} (h : m[i]? = some s) :
    execCnt m (i + 1) = execCnt m i + (if s.isTagStep then 0 else 1) := by
  unfold execCnt
  rw [List.take_succ, h]
  cases hs : s.isTagStep <;>
    simp [List.filter_append, hs]

theorem execCnt_succ_none {m : List AnyTechnique} {i : Nat} (h : m[i]? = none) :
    execCnt m (i + 1) = execCnt m i := by
  unfold execCnt
  rw [List.take_succ, h]
  simp

theorem execCnt_le_succ (m : List AnyTechnique) (i : Nat) :
    execCnt m i ≤ execCnt m (i + 1) := by
  cases h : m[i]? with
  | none => rw [execCnt_succ_none h]
  | some s => rw [execCnt_succ h]; omega

theorem execCnt_mono (m : List AnyTechnique) {i j : Nat} (h : i ≤ j) :
    execCnt m i ≤ execCnt m j := by
  induction j with
  | zero =>
    have hi : i = 0 := by omega
    subst hi; exact le_refl _
  | succ j ih =>
    rcases (by omega : i ≤ j ∨ i = j + 1) with h' | h'
    · exact le_trans (ih h') (execCnt_le_succ m j)
    · subst h'; exact le_refl _

theorem execCnt_lt_of_nonTag {m : List AnyTechnique} {i j : Nat} {s : AnyTechnique}
    (hij : i ≤ j) (hj : m[j]? = some s) (hnt : s.isTagStep = false) :
    execCnt m i < execCnt m (j + 1) := by
  have h1 : execCnt m i ≤ execCnt m j := execCnt_mono m hij
  rw [execCnt_succ hj]
  simp only [hnt, Bool.false_eq_true, if_false]
  omega

theorem execCnt_le (m : List AnyTechnique) (i : Nat) : execCnt m i ≤ i := by
  induction i with
  | zero => simp [execCnt_zero]
  | succ i ih =>
    cases h : m[i]? with
    | none => rw [execCnt_succ_none h]; omega
    | some s => rw [execCnt_succ h]; split <;> omega

theorem execCnt_congr_of_tags {m : List AnyTechnique} {i j : Nat} (hij : i ≤ j)
    (htags : ∀ x, i ≤ x → x < j → ∀ s, m[x]? = some s → s.isTagStep = true) :
    execCnt m j = execCnt m i := by
  induction j with
  | zero =>
    have hi : i = 0 := by omega
    subst hi; rfl
  | succ j ih =>
    rcases (by omega : i ≤ j ∨ i = j + 1) with h' | h'
    · have hj : execCnt m j = execCnt m i :=
        ih h' (fun x hx1 hx2 s hs => htags x hx1 (by omega) s hs)
      cases hs : m[j]? with
      | none => rw [execCnt_succ_none hs, hj]
      | some s =>
        rw [execCnt_succ hs]
        simp only [htags j h' (by omega) s hs, if_true]
        omega
    · subst h'; rfl

theorem noTag_execCnt {m : List AnyTechnique} (hnt : noTagSteps m = true) {i : Nat}
    (h : i ≤ m.length) : execCnt m i = i := by
  have hall : ∀ s ∈ m.take i, (!s.isTagStep) = true := by
    intro s hs
    exact (List.all_eq_true.mp hnt) s (List.take_subset i m hs)
  unfold execCnt
  rw [List.filter_eq_self.mpr hall, List.length_take]
  omega

theorem pyListGet_spec {idx : List Nat} {m : List AnyTechnique} {i : Nat}
    (hlen : idx.length = m.length)
    (hval : ∀ k, k < m.length → idx[k]? = some (if k < i + 1 then execCnt m k + 1 else 0))
    (t : Int) : pyListGet idx (t - 1) = specRead m i t := by
  unfold pyListGet specRead
  simp only [hlen]
  by_cases hneg : t - 1 < 0
  · rw [if_pos hneg]
    by_cases hj : t - 1 + (m.length : Int) < 0
    · rw [if_pos hj, if_neg (by omega)]
    · rw [if_neg hj, if_pos (by omega)]
      have hk : (t - 1 + (m.length : Int)).toNat < m.length := by omega
      rw [hval _ hk]
      congr 1
      split <;> split <;> omega
  · rw [if_neg hneg, if_neg hneg]
    by_cases hb : (t - 1).toNat < m.length
    · rw [if_pos (by omega), hval _ hb]
      congr 1
      split <;> split <;> omega
    · rw [if_neg (by omega)]
      exact List.getElem?_eq_none (by omega)

theorem setIdx_inv {m : List AnyTechnique} {idx : List Nat} {i : Nat}
    (hidxlen : idx.length = m.length)
    (hidx : ∀ k, k < m.length → idx[k]? = some (if k < i then execCnt m k + 1 else 0)) :
    ∀ k, k < m.length → (idx.set i (execCnt m i + 1))[k]? =
      some (if k < i + 1 then execCnt m k + 1 else 0) := by
  intro k hk
  by_cases hki : i = k
  · subst hki
    rw [List.getElem?_set_self (by omega), if_pos (by omega)]
  · rw [List.getElem?_set_ne hki, hidx k hk]
    by_cases hk2 : k < i
    · rw [if_pos hk2, if_pos (by omega)]
    · rw [if_neg hk2, if_neg (by omega)]

theorem dictFind_cons (name : String) (v : Nat) (tags : List (String × Nat)) (a : String) :
    dictFind ((name, v) :: tags) a = if name = a then some v else dictFind tags a := by
  by_cases h : name = a
  · simp [dictFind, List.find?, h]
  · have hb : (name == a) = false := beq_eq_false_iff_ne.mpr h
    simp [dictFind, List.find?, hb, h]

theorem resolveSpecAux_succ_none {m : List AnyTechnique} {rem i : Nat} (h : m[i]? = none) :
    resolveSpecAux m (rem + 1) i = .ok [] := by
  rw [resolveSpecAux, h]

theorem resolveSpecAux_succ_tag {m : List AnyTechnique} {rem i : Nat} {id : Option String}
    {name : String} (h : m[i]? = some (.tag id name)) :
    resolveSpecAux m (rem + 1) i = resolveSpecAux m rem (i + 1) := by
  rw [resolveSpecAux, h]

theorem resolveSpecAux_succ_loopInl {m : List AnyTechnique} {rem i : Nat} {id : Option String}
    {t : Int} {cnt : Nat} (h : m[i]? = some (.loop id (.inl t) cnt)) :
    resolveSpecAux m (rem + 1) i =
      match specRead m i t with
      | some v => (resolveSpecAux m rem (i + 1)).map (fun l => .loop id (.inl (v : Nat)) cnt :: l)
      | none => .error .indexError := by
  rw [resolveSpecAux, h]

theorem resolveSpecAux_succ_loopInr {m : List AnyTechnique} {rem i : Nat} {id : Option String}
    {a : String} {cnt : Nat} (h : m[i]? = some (.loop id (.inr a) cnt)) :
    resolveSpecAux m (rem + 1) i =
      match tagAnchorAt m i a with
      | some v => (resolveSpecAux m rem (i + 1)).map (fun l => .loop id (.inl (v : Nat)) cnt :: l)
      | none =>
        .error (.valueError ("Loop step with tag " ++ a ++
          " does not have a corresponding tag step.")) := by
  rw [resolveSpecAux, h]

theorem resolveSpecAux_succ_plain {m : List AnyTechnique} {rem i : Nat} {s : AnyTechnique}
    (h : m[i]? = some s) (hnt : s.isTagStep = false) (hnl : s.isLoopStep = false) :
    resolveSpecAux m (rem + 1) i =
      (resolveSpecAux m rem (i + 1)).map (fun l => s :: l) := by
  rw [resolveSpecAux, h]
  cases s with
  | tag id name => simp [AnyTechnique.isTagStep] at hnt
  | loop id lt cnt => simp [AnyTechnique.isLoopStep] at hnl
  | openCircuitVoltage id u => rfl
  | constantCurrent id a b c d => rfl
  | constantVoltage id a b c d => rfl
  | impedanceSpectroscopy id a b c d e f g => rfl

theorem tagAnchorAt_succ_nonTag {m : List AnyTechnique} {i : Nat} {s : AnyTechnique}
    (hget : m[i]? = some s) (hs : s.isTagStep = false) (a : String) :
    tagAnchorAt m (i + 1) a = tagAnchorAt m i a := by
  rw [tagAnchorAt, hget]
  cases s with
  | tag id name => simp [AnyTechnique.isTagStep] at hs
  | openCircuitVoltage id u => rfl
  | constantCurrent id a b c d => rfl
  | constantVoltage id a b c d => rfl
  | impedanceSpectroscopy id a b c d e f g => rfl
  | loop id lt cnt => rfl

theorem tagAnchorAt_succ_tag {m : List AnyTechnique} {i : Nat} {id : Option String}
    {name : String} (hget : m[i]? = some (.tag id name)) (a : String) :
    tagAnchorAt m (i + 1) a =
      if name = a then some (execCnt m i + 1) else tagAnchorAt m i a := by
  rw [tagAnchorAt, hget]

/-- The scanning loop of `tag_to_indices` computes exactly the closed-form
resolver `resolveSpecAux`, given the loop's state invariants: `indices` holds
`execCnt + 1` below `i` and `0` above, the `tags` dict agrees with
`tagAnchorAt`, and the counter is `execCnt m i`. -/
theorem tagToIndicesGo_eq_spec (m : List AnyTechnique) :
    ∀ (rem i : Nat) (idx : List Nat) (tags : List (String × Nat)),
      m.length ≤ i + rem →
      idx.length = m.length →
      (∀ k, k < m.length → idx[k]? = some (if k < i then execCnt m k + 1 else 0)) →
      (∀ a, dictFind tags a = tagAnchorAt m i a) →
      tagToIndicesGo (m.drop i) i idx tags (execCnt m i) = resolveSpecAux m rem i := by
  intro rem
  induction rem with
  | zero =>
    intro i idx tags hlen hidxlen hidx htags
    rw [List.drop_eq_nil_of_le (by omega)]
    rfl
  | succ rem ih =>
    intro i idx tags hlen hidxlen hidx htags
    by_cases hi : i < m.length
    · have hget : m[i]? = some m[i] := List.getElem?_eq_getElem hi
      have hdrop : m.drop i = m[i] :: m.drop (i + 1) := List.drop_eq_getElem_cons hi
      have hidxlen' : (idx.set i (execCnt m i + 1)).length = m.length := by
        simp [hidxlen]
      have hidx' := setIdx_inv hidxlen hidx
      rw [hdrop]
      cases hstep : m[i] with
      | tag id name =>
        rw [hstep] at hget
        have hcnt : execCnt m (i + 1) = execCnt m i := by
          rw [execCnt_succ hget]; rfl
        have htags' : ∀ a, dictFind ((name, execCnt m i + 1) :: tags) a =
            tagAnchorAt m (i + 1) a := by
          intro a
          rw [dictFind_cons, tagAnchorAt_succ_tag hget, htags a]
        rw [tagToIndicesGo, resolveSpecAux_succ_tag hget]
        have := ih (i + 1) (idx.set i (execCnt m i + 1)) ((name, execCnt m i + 1) :: tags)
          (by omega) hidxlen' hidx' htags'
        rw [hcnt] at this
        exact this
      | loop id lt cnt =>
        rw [hstep] at hget
        have hcnt : execCnt m (i + 1) = execCnt m i + 1 := by
          rw [execCnt_succ hget]; rfl
        have htags' : ∀ a, dictFind tags a = tagAnchorAt m (i + 1) a := by
          intro a
          rw [tagAnchorAt_succ_nonTag hget rfl, htags a]
        have hrec := ih (i + 1) (idx.set i (execCnt m i + 1)) tags
          (by omega) hidxlen' hidx' htags'
        rw [hcnt] at hrec
        cases lt with
        | inl t =>
          rw [tagToIndicesGo, resolveSpecAux_succ_loopInl hget,
            pyListGet_spec hidxlen' hidx' t]
          cases hv : specRead m i t with
          | none => rfl
          | some v => rw [hrec]
        | inr a =>
          rw [tagToIndicesGo, resolveSpecAux_succ_loopInr hget, htags a]
          cases hv : tagAnchorAt m i a with
          | none => rfl
          | some v => rw [hrec]
      | openCircuitVoltage id u =>
        rw [hstep] at hget
        have hcnt : execCnt m (i + 1) = execCnt m i + 1 := by
          rw [execCnt_succ hget]; rfl
        have htags' : ∀ a, dictFind tags a = tagAnchorAt m (i + 1) a := by
          intro a; rw [tagAnchorAt_succ_nonTag hget rfl, htags a]
        have hrec := ih (i + 1) (idx.set i (execCnt m i + 1)) tags
          (by omega) hidxlen' hidx' htags'
        rw [hcnt] at hrec
        rw [tagToIndicesGo, resolveSpecAux_succ_plain hget rfl rfl, hrec]
        all_goals simp
      | constantCurrent id r c u v =>
        rw [hstep] at hget
        have hcnt : execCnt m (i + 1) = execCnt m i + 1 := by
          rw [execCnt_succ hget]; rfl
        have htags' : ∀ a, dictFind tags a = tagAnchorAt m (i + 1) a := by
          intro a; rw [tagAnchorAt_succ_nonTag hget rfl, htags a]
        have hrec := ih (i + 1) (idx.set i (execCnt m i + 1)) tags
          (by omega) hidxlen' hidx' htags'
        rw [hcnt] at hrec
        rw [tagToIndicesGo, resolveSpecAux_succ_plain hget rfl rfl, hrec]
        all_goals simp
      | constantVoltage id v u r c =>
        rw [hstep] at hget
        have hcnt : execCnt m (i + 1) = execCnt m i + 1 := by
          rw [execCnt_succ hget]; rfl
        have htags' : ∀ a, dictFind tags a = tagAnchorAt m (i + 1) a := by
          intro a; rw [tagAnchorAt_succ_nonTag hget rfl, htags a]
        have hrec := ih (i + 1) (idx.set i (execCnt m i + 1)) tags
          (by omega) hidxlen' hidx' htags'
        rw [hcnt] at hrec
        rw [tagToIndicesGo, resolveSpecAux_succ_plain hget rfl rfl, hrec]
        all_goals simp
      | impedanceSpectroscopy id av am sf ef ppd mpp dc =>
        rw [hstep] at hget
        have hcnt : execCnt m (i + 1) = execCnt m i + 1 := by
          rw [execCnt_succ hget]; rfl
        have htags' : ∀ a, dictFind tags a = tagAnchorAt m (i + 1) a := by
          intro a; rw [tagAnchorAt_succ_nonTag hget rfl, htags a]
        have hrec := ih (i + 1) (idx.set i (execCnt m i + 1)) tags
          (by omega) hidxlen' hidx' htags'
        rw [hcnt] at hrec
        rw [tagToIndicesGo, resolveSpecAux_succ_plain hget rfl rfl, hrec]
        all_goals simp
    · rw [List.drop_eq_nil_of_le (by omega)]
      rw [tagToIndicesGo, resolveSpecAux_succ_none (List.getElem?_eq_none (by omega))]

/-- `tag_to_indices` equals the closed-form resolver. -/
theorem tag_to_indices_eq_spec (p : BaseProtocol) :
    tag_to_indices p =
      (resolveSpecAux p.method p.method.length 0).map (fun m => { p with method := m }) := by
  unfold tag_to_indices
  have h := tagToIndicesGo_eq_spec p.method p.method.length 0
    (List.replicate p.method.length 0) [] (by omega) (by simp)
    (by
      intro k hk
      rw [List.getElem?_replicate, if_pos hk, if_neg (by omega)])
    (by intro a; rfl)
  rw [List.drop_zero] at h
  rw [show execCnt p.method 0 = 0 from rfl] at h
  rw [h]

theorem resolvedOf_succ_none {m : List AnyTechnique} {rem i : Nat} (h : m[i]? = none) :
    resolvedOf m (rem + 1) i = [] := by
  rw [resolvedOf, h]

theorem resolvedOf_succ_tag {m : List AnyTechnique} {rem i : Nat} {id : Option String}
    {name : String} (h : m[i]? = some (.tag id name)) :
    resolvedOf m (rem + 1) i = resolvedOf m rem (i + 1) := by
  rw [resolvedOf, h]

theorem resolvedOf_succ_other {m : List AnyTechnique} {rem i : Nat} {s : AnyTechnique}
    (h : m[i]? = some s) (hnt : s.isTagStep = false) :
    resolvedOf m (rem + 1) i = rewriteAt m i s :: resolvedOf m rem (i + 1) := by
  rw [resolvedOf, h]
  cases s with
  | tag id name => simp [AnyTechnique.isTagStep] at hnt
  | openCircuitVoltage id u => rfl
  | constantCurrent id a b c d => rfl
  | constantVoltage id a b c d => rfl
  | impedanceSpectroscopy id a b c d e f g => rfl
  | loop id lt cnt => rfl

theorem resolveSpecAux_ok_eq {m : List AnyTechnique} :
    ∀ (rem i : Nat) (out : List AnyTechnique),
      resolveSpecAux m rem i = .ok out → out = resolvedOf m rem i := by
  intro rem
  induction rem with
  | zero =>
    intro i out h
    rw [resolveSpecAux] at h
    cases h
    rfl
  | succ rem ih =>
    intro i out h
    cases hget : m[i]? with
    | none =>
      rw [resolveSpecAux_succ_none hget] at h
      cases h
      rw [resolvedOf_succ_none hget]
    | some s =>
      cases s with
      | tag id name =>
        rw [resolveSpecAux_succ_tag hget] at h
        rw [resolvedOf_succ_tag hget]
        exact ih (i + 1) out h
      | loop id lt cnt =>
        cases lt with
        | inl t =>
          rw [resolveSpecAux_succ_loopInl hget] at h
          cases hv : specRead m i t with
          | none => rw [hv] at h; cases h
          | some v =>
            rw [hv] at h
            cases hr : resolveSpecAux m rem (i + 1) with
            | error e => rw [hr] at h; cases h
            | ok l =>
              rw [hr] at h
              cases h
              rw [resolvedOf_succ_other hget rfl]
              rw [← ih (i + 1) l hr]
              show AnyTechnique.loop id (.inl (v : Nat)) cnt :: l =
                rewriteAt m i (.loop id (.inl t) cnt) :: l
              rw [rewriteAt, hv]
              rfl
        | inr a =>
          rw [resolveSpecAux_succ_loopInr hget] at h
          cases hv : tagAnchorAt m i a with
          | none => rw [hv] at h; cases h
          | some v =>
            rw [hv] at h
            cases hr : resolveSpecAux m rem (i + 1) with
            | error e => rw [hr] at h; cases h
            | ok l =>
              rw [hr] at h
              cases h
              rw [resolvedOf_succ_other hget rfl]
              rw [← ih (i + 1) l hr]
              show AnyTechnique.loop id (.inl (v : Nat)) cnt :: l =
                rewriteAt m i (.loop id (.inr a) cnt) :: l
              rw [rewriteAt, hv]
              rfl
      | openCircuitVoltage id u =>
        rw [resolveSpecAux_succ_plain hget rfl rfl] at h
        cases hr : resolveSpecAux m rem (i + 1) with
        | error e => rw [hr] at h; cases h
        | ok l =>
          rw [hr] at h
          cases h
          rw [resolvedOf_succ_other hget rfl, ← ih (i + 1) l hr]
          rfl
      | constantCurrent id a b c d =>
        rw [resolveSpecAux_succ_plain hget rfl rfl] at h
        cases hr : resolveSpecAux m rem (i + 1) with
        | error e => rw [hr] at h; cases h
        | ok l =>
          rw [hr] at h
          cases h
          rw [resolvedOf_succ_other hget rfl, ← ih (i + 1) l hr]
          rfl
      | constantVoltage id a b c d =>
        rw [resolveSpecAux_succ_plain hget rfl rfl] at h
        cases hr : resolveSpecAux m rem (i + 1) with
        | error e => rw [hr] at h; cases h
        | ok l =>
          rw [hr] at h
          cases h
          rw [resolvedOf_succ_other hget rfl, ← ih (i + 1) l hr]
          rfl
      | impedanceSpectroscopy id a b c d e f g =>
        rw [resolveSpecAux_succ_plain hget rfl rfl] at h
        cases hr : resolveSpecAux m rem (i + 1) with
        | error e => rw [hr] at h; cases h
        | ok l =>
          rw [hr] at h
          cases h
          rw [resolvedOf_succ_other hget rfl, ← ih (i + 1) l hr]
          rfl

theorem mem_tagsOf {m : List AnyTechnique} {j : Nat} {a : String} :
    (j, a) ∈ tagsOf m ↔ ∃ id, m[j]? = some (.tag id a) := by
  unfold tagsOf
  rw [List.mem_filterMap]
  constructor
  · rintro ⟨⟨j', s⟩, hmem, hf⟩
    cases s with
    | tag id name =>
      simp only [Option.some.injEq, Prod.mk.injEq] at hf
      obtain ⟨rfl, rfl⟩ := hf
      exact ⟨id, List.mk_mem_enum_iff_getElem?.mp hmem⟩
    | openCircuitVoltage id u => cases hf
    | constantCurrent id a b c d => cases hf
    | constantVoltage id a b c d => cases hf
    | impedanceSpectroscopy id a b c d e f g => cases hf
    | loop id lt cnt => cases hf
  · rintro ⟨id, hj⟩
    exact ⟨(j, .tag id a), List.mk_mem_enum_iff_getElem?.mpr hj, rfl⟩

theorem mem_loopIdxOf {m : List AnyTechnique} {ℓ : Nat} {t : Int} :
    (ℓ, t) ∈ loopIdxOf m ↔ ∃ id c, m[ℓ]? = some (.loop id (.inl t) c) := by
  unfold loopIdxOf
  rw [List.mem_filterMap]
  constructor
  · rintro ⟨⟨ℓ', s⟩, hmem, hf⟩
    cases s with
    | loop id lt c =>
      cases lt with
      | inl t' =>
        simp only [Option.some.injEq, Prod.mk.injEq] at hf
        obtain ⟨rfl, rfl⟩ := hf
        exact ⟨id, c, List.mk_mem_enum_iff_getElem?.mp hmem⟩
      | inr a => cases hf
    | tag id name => cases hf
    | openCircuitVoltage id u => cases hf
    | constantCurrent id a b c d => cases hf
    | constantVoltage id a b c d => cases hf
    | impedanceSpectroscopy id a b c d e f g => cases hf
  · rintro ⟨id, c, hj⟩
    exact ⟨(ℓ, .loop id (.inl t) c), List.mk_mem_enum_iff_getElem?.mpr hj, rfl⟩

theorem mem_loopTagsOf {m : List AnyTechnique} {ℓ : Nat} {a : String} :
    (ℓ, a) ∈ loopTagsOf m ↔ ∃ id c, m[ℓ]? = some (.loop id (.inr a) c) := by
  unfold loopTagsOf
  rw [List.mem_filterMap]
  constructor
  · rintro ⟨⟨ℓ', s⟩, hmem, hf⟩
    cases s with
    | loop id lt c =>
      cases lt with
      | inr a' =>
        simp only [Option.some.injEq, Prod.mk.injEq] at hf
        obtain ⟨rfl, rfl⟩ := hf
        exact ⟨id, c, List.mk_mem_enum_iff_getElem?.mp hmem⟩
      | inl t => cases hf
    | tag id name => cases hf
    | openCircuitVoltage id u => cases hf
    | constantCurrent id a b c d => cases hf
    | constantVoltage id a b c d => cases hf
    | impedanceSpectroscopy id a b c d e f g => cases hf
  · rintro ⟨id, c, hj⟩
    exact ⟨(ℓ, .loop id (.inr a) c), List.mk_mem_enum_iff_getElem?.mpr hj, rfl⟩

theorem validate_ok_parts {m : List AnyTechnique} (h : validate_loops_and_tags m = .ok ()) :
    ((tagsOf m).map Prod.snd).Nodup ∧ checkLoopIdx (loopIdxOf m) = .ok () ∧
      checkLoopTags (tagsRev m) (loopTagsOf m) = .ok () := by
  unfold validate_loops_and_tags at h
  by_cases hnd : ((tagsOf m).map (·.2)).Nodup
  · rw [if_pos hnd] at h
    cases hidx : checkLoopIdx (loopIdxOf m) with
    | error e => rw [hidx] at h; cases h
    | ok u =>
      rw [hidx] at h
      cases u
      exact ⟨hnd, rfl, h⟩
  · rw [if_neg hnd] at h
    cases h

theorem checkLoopTags_cons_none {trev : String → Option Nat} {i : Nat} {name : String}
    {tl : List (Nat × String)} (htv : trev name = none) :
    checkLoopTags trev ((i, name) :: tl) = .error (.missingTag name) := by
  rw [checkLoopTags, htv]

theorem checkLoopTags_cons_some {trev : String → Option Nat} {i : Nat} {name : String}
    {tl : List (Nat × String)} {tag_i : Nat} (htv : trev name = some tag_i) :
    checkLoopTags trev ((i, name) :: tl) =
      if i ≤ tag_i then .error (.forwards name i tag_i)
      else if i = tag_i + 1 then .error (.immediatelyAfter name)
      else checkLoopTags trev tl := by
  rw [checkLoopTags, htv]

theorem checkLoopTags_ok_mem {trev : String → Option Nat} {l : List (Nat × String)}
    (h : checkLoopTags trev l = .ok ()) :
    ∀ p ∈ l, ∃ ti, trev p.2 = some ti ∧ ti < p.1 ∧ p.1 ≠ ti + 1 := by
  induction l with
  | nil => intro p hp; cases hp
  | cons hd tl ih =>
    obtain ⟨i, name⟩ := hd
    cases htv : trev name with
    | none => rw [checkLoopTags_cons_none htv] at h; cases h
    | some tag_i =>
      rw [checkLoopTags_cons_some htv] at h
      by_cases h1 : i ≤ tag_i
      · rw [if_pos h1] at h; cases h
      · rw [if_neg h1] at h
        by_cases h2 : i = tag_i + 1
        · rw [if_pos h2] at h; cases h
        · rw [if_neg h2] at h
          intro p hp
          rcases List.mem_cons.mp hp with rfl | hp'
          · exact ⟨tag_i, htv, by omega, h2⟩
          · exact ih h p hp'

theorem tagsRev_some {m : List AnyTechnique} {a : String} {ti : Nat}
    (h : tagsRev m a = some ti) : ∃ id, m[ti]? = some (.tag id a) := by
  unfold tagsRev at h
  cases hf : (tagsOf m).reverse.find? (fun e => e.2 == a) with
  | none => rw [hf] at h; cases h
  | some p =>
    rw [hf] at h
    obtain ⟨pi, pa⟩ := p
    simp only [Option.map_some', Option.some.injEq] at h
    have hpi : pi = ti := h
    subst hpi
    have hfind := List.find?_some hf
    have hpa : pa = a := by simpa using hfind
    subst hpa
    exact mem_tagsOf.mp (List.mem_reverse.mp (List.mem_of_find?_eq_some hf))

theorem tag_unique {m : List AnyTechnique} (hnodup : ((tagsOf m).map Prod.snd).Nodup)
    {i j : Nat} {idi idj : Option String} {a : String}
    (hi : m[i]? = some (.tag idi a)) (hj : m[j]? = some (.tag idj a)) : i = j := by
  have hmi : (i, a) ∈ tagsOf m := mem_tagsOf.mpr ⟨idi, hi⟩
  have hmj : (j, a) ∈ tagsOf m := mem_tagsOf.mpr ⟨idj, hj⟩
  have heq : ((i, a) : Nat × String) = (j, a) :=
    List.inj_on_of_nodup_map hnodup hmi hmj rfl
  exact congrArg Prod.fst heq

theorem tagAnchorAt_of_unique {m : List AnyTechnique}
    (hnodup : ((tagsOf m).map Prod.snd).Nodup) {ti : Nat} {id' : Option String} {a : String}
    (hti : m[ti]? = some (.tag id' a)) :
    ∀ i, ti < i → tagAnchorAt m i a = some (execCnt m ti + 1) := by
  intro i
  induction i with
  | zero => omega
  | succ i ih =>
    intro hlt
    rcases (by omega : ti = i ∨ ti < i) with rfl | hlt'
    · rw [tagAnchorAt_succ_tag hti, if_pos rfl]
    · cases hgi : m[i]? with
      | none =>
        rw [tagAnchorAt, hgi]
        exact ih hlt'
      | some s =>
        cases s with
        | tag idx name =>
          rw [tagAnchorAt_succ_tag hgi]
          have hne : name ≠ a := by
            intro hna
            subst hna
            exact absurd (tag_unique hnodup hti hgi) (by omega)
          rw [if_neg hne]
          exact ih hlt'
        | openCircuitVoltage idx u => rw [tagAnchorAt_succ_nonTag hgi rfl]; exact ih hlt'
        | constantCurrent idx a' b c d => rw [tagAnchorAt_succ_nonTag hgi rfl]; exact ih hlt'
        | constantVoltage idx a' b c d => rw [tagAnchorAt_succ_nonTag hgi rfl]; exact ih hlt'
        | impedanceSpectroscopy idx a' b c d e f g =>
          rw [tagAnchorAt_succ_nonTag hgi rfl]; exact ih hlt'
        | loop idx lt cnt => rw [tagAnchorAt_succ_nonTag hgi rfl]; exact ih hlt'

theorem specRead_eval {m : List AnyTechnique} {i : Nat} {t : Int} (h1 : 1 ≤ t)
    (h2 : t ≤ (i : Int) + 1) (hi : i < m.length) :
    specRead m i t = some (execCnt m (t - 1).toNat + 1) := by
  have hw : (if t - 1 < 0 then t - 1 + (m.length : Int) else t - 1) = t - 1 :=
    if_neg (by omega)
  unfold specRead
  simp only [hw]
  rw [if_pos (by constructor <;> omega), if_pos (by omega)]

theorem rewriteAt_loopInl {m : List AnyTechnique} {i : Nat} {id : Option String} {t : Int}
    {c : Nat} : rewriteAt m i (.loop id (.inl t) c) =
      .loop id (.inl (((specRead m i t).getD 0 : Nat) : Int)) c := rfl

theorem rewriteAt_loopInr {m : List AnyTechnique} {i : Nat} {id : Option String} {a : String}
    {c : Nat} : rewriteAt m i (.loop id (.inr a) c) =
      .loop id (.inl (((tagAnchorAt m i a).getD 0 : Nat) : Int)) c := rfl

theorem resolvedOf_bounds {m : List AnyTechnique}
    (hnum : ∀ (ℓ : Nat) (id : Option String) (t : Int) (c : Nat),
      m[ℓ]? = some (.loop id (.inl t) c) → 1 ≤ t ∧ t < (ℓ : Int))
    (htag : ∀ (ℓ : Nat) (id : Option String) (a : String) (c : Nat),
      m[ℓ]? = some (.loop id (.inr a) c) →
      ∃ (ti : Nat) (id' : Option String), ti < ℓ ∧ m[ti]? = some (.tag id' a))
    (hnodup : ((tagsOf m).map Prod.snd).Nodup) :
    ∀ (rem i k : Nat) (s' : AnyTechnique), (resolvedOf m rem i)[k]? = some s' →
      s'.isTagStep = false ∧
      ∀ (id : Option String) lt c, s' = .loop id lt c →
        ∃ v : Nat, lt = .inl (v : Int) ∧ 1 ≤ v ∧ v ≤ execCnt m i + k + 1 := by
  intro rem
  induction rem with
  | zero =>
    intro i k s' h
    rw [resolvedOf] at h
    cases h
  | succ rem ih =>
    intro i k s' h
    cases hget : m[i]? with
    | none =>
      rw [resolvedOf_succ_none hget] at h
      cases h
    | some s =>
      have hi : i < m.length := by
        rcases List.getElem?_eq_some.mp hget with ⟨hlt, -⟩
        exact hlt
      cases s with
      | tag id name =>
        rw [resolvedOf_succ_tag hget] at h
        have hcnt : execCnt m (i + 1) = execCnt m i := by
          rw [execCnt_succ hget]; rfl
        have := ih (i + 1) k s' h
        rw [hcnt] at this
        exact this
      | loop id lt cnt =>
        have hcnt : execCnt m (i + 1) = execCnt m i + 1 := by
          rw [execCnt_succ hget]; rfl
        rw [resolvedOf_succ_other hget rfl] at h
        cases k with
        | zero =>
          simp only [List.getElem?_cons_zero, Option.some.injEq] at h
          subst h
          cases lt with
          | inl t =>
            rcases hnum i id t cnt hget with ⟨h1, h2⟩
            rw [rewriteAt_loopInl]
            refine ⟨rfl, ?_⟩
            intro id' lt' c' heq
            simp only [AnyTechnique.loop.injEq] at heq
            obtain ⟨-, hlt', -⟩ := heq
            rw [specRead_eval h1 (by omega) hi, Option.getD_some] at hlt'
            refine ⟨execCnt m (t - 1).toNat + 1, hlt'.symm, by omega, ?_⟩
            have := execCnt_mono m (show (t - 1).toNat ≤ i by omega)
            omega
          | inr a =>
            rcases htag i id a cnt hget with ⟨ti, id', hlt, hti⟩
            rw [rewriteAt_loopInr]
            refine ⟨rfl, ?_⟩
            intro id'' lt' c' heq
            simp only [AnyTechnique.loop.injEq] at heq
            obtain ⟨-, hlt', -⟩ := heq
            rw [tagAnchorAt_of_unique hnodup hti i hlt, Option.getD_some] at hlt'
            refine ⟨execCnt m ti + 1, hlt'.symm, by omega, ?_⟩
            have := execCnt_mono m (show ti ≤ i by omega)
            omega
        | succ k =>
          simp only [List.getElem?_cons_succ] at h
          have := ih (i + 1) k s' h
          rw [hcnt] at this
          exact ⟨this.1, fun id' lt' c' heq => by
            rcases this.2 id' lt' c' heq with ⟨v, hv, h1, h2⟩
            exact ⟨v, hv, h1, by omega⟩⟩
      | openCircuitVoltage id u =>
        have hcnt : execCnt m (i + 1) = execCnt m i + 1 := by
          rw [execCnt_succ hget]; rfl
        rw [resolvedOf_succ_other hget rfl] at h
        cases k with
        | zero =>
          simp only [List.getElem?_cons_zero, Option.some.injEq] at h
          subst h
          exact ⟨rfl, fun id' lt' c' heq => by cases heq⟩
        | succ k =>
          simp only [List.getElem?_cons_succ] at h
          have := ih (i + 1) k s' h
          rw [hcnt] at this
          exact ⟨this.1, fun id' lt' c' heq => by
            rcases this.2 id' lt' c' heq with ⟨v, hv, h1, h2⟩
            exact ⟨v, hv, h1, by omega⟩⟩
      | constantCurrent id a b c d =>
        have hcnt : execCnt m (i + 1) = execCnt m i + 1 := by
          rw [execCnt_succ hget]; rfl
        rw [resolvedOf_succ_other hget rfl] at h
        cases k with
        | zero =>
          simp only [List.getElem?_cons_zero, Option.some.injEq] at h
          subst h
          exact ⟨rfl, fun id' lt' c' heq => by cases heq⟩
        | succ k =>
          simp only [List.getElem?_cons_succ] at h
          have := ih (i + 1) k s' h
          rw [hcnt] at this
          exact ⟨this.1, fun id' lt' c' heq => by
            rcases this.2 id' lt' c' heq with ⟨v, hv, h1, h2⟩
            exact ⟨v, hv, h1, by omega⟩⟩
      | constantVoltage id a b c d =>
        have hcnt : execCnt m (i + 1) = execCnt m i + 1 := by
          rw [execCnt_succ hget]; rfl
        rw [resolvedOf_succ_other hget rfl] at h
        cases k with
        | zero =>
          simp only [List.getElem?_cons_zero, Option.some.injEq] at h
          subst h
          exact ⟨rfl, fun id' lt' c' heq => by cases heq⟩
        | succ k =>
          simp only [List.getElem?_cons_succ] at h
          have := ih (i + 1) k s' h
          rw [hcnt] at this
          exact ⟨this.1, fun id' lt' c' heq => by
            rcases this.2 id' lt' c' heq with ⟨v, hv, h1, h2⟩
            exact ⟨v, hv, h1, by omega⟩⟩
      | impedanceSpectroscopy id a b c d e f g =>
        have hcnt : execCnt m (i + 1) = execCnt m i + 1 := by
          rw [execCnt_succ hget]; rfl
        rw [resolvedOf_succ_other hget rfl] at h
        cases k with
        | zero =>
          simp only [List.getElem?_cons_zero, Option.some.injEq] at h
          subst h
          exact ⟨rfl, fun id' lt' c' heq => by cases heq⟩
        | succ k =>
          simp only [List.getElem?_cons_succ] at h
          have := ih (i + 1) k s' h
          rw [hcnt] at this
          exact ⟨this.1, fun id' lt' c' heq => by
            rcases this.2 id' lt' c' heq with ⟨v, hv, h1, h2⟩
            exact ⟨v, hv, h1, by omega⟩⟩

/-- Internal form of the resolution post-condition, shared by the C2 and C6
theorems. -/
theorem tag_to_indices_postcondition (p : BaseProtocol)
    (hval : validate_loops_and_tags p.method = .ok ())
    (hpos : positiveTargets p.method = true)
    (out : BaseProtocol) (hres : tag_to_indices p = .ok out) :
    noTagSteps out.method = true ∧ resolvedBounded out.method = true := by
  obtain ⟨hnodup, hidx, htagsok⟩ := validate_ok_parts hval
  have hnum : ∀ (ℓ : Nat) (id : Option String) (t : Int) (c : Nat),
      p.method[ℓ]? = some (.loop id (.inl t) c) → 1 ≤ t ∧ t < (ℓ : Int) := by
    intro ℓ id t c hg
    have hmem : (ℓ, t) ∈ loopIdxOf p.method := mem_loopIdxOf.mpr ⟨id, c, hg⟩
    have hlt := (checkLoopIdx_ok_iff _).mp hidx _ hmem
    have hs : AnyTechnique.loop id (.inl t) c ∈ p.method := List.getElem?_mem hg
    have h1 : decide (1 ≤ t) = true := List.all_eq_true.mp hpos _ hs
    exact ⟨of_decide_eq_true h1, hlt⟩
  have htagH : ∀ (ℓ : Nat) (id : Option String) (a : String) (c : Nat),
      p.method[ℓ]? = some (.loop id (.inr a) c) →
      ∃ (ti : Nat) (id' : Option String), ti < ℓ ∧ p.method[ti]? = some (.tag id' a) := by
    intro ℓ id a c hg
    have hmem : (ℓ, a) ∈ loopTagsOf p.method := mem_loopTagsOf.mpr ⟨id, c, hg⟩
    rcases checkLoopTags_ok_mem htagsok _ hmem with ⟨ti, htv, hlt, -⟩
    rcases tagsRev_some htv with ⟨id', hti⟩
    exact ⟨ti, id', hlt, hti⟩
  rw [tag_to_indices_eq_spec] at hres
  cases hspec : resolveSpecAux p.method p.method.length 0 with
  | error e => rw [hspec] at hres; cases hres
  | ok m' =>
    rw [hspec] at hres
    simp only [Except.map, Except.ok.injEq] at hres
    have houtm : out.method = resolvedOf p.method p.method.length 0 := by
      rw [← hres, ← resolveSpecAux_ok_eq _ _ _ hspec]
    have hprops : ∀ (k : Nat) (s' : AnyTechnique), out.method[k]? = some s' →
        s'.isTagStep = false ∧
        ∀ (id : Option String) lt c, s' = .loop id lt c →
          ∃ v : Nat, lt = .inl (v : Int) ∧ 1 ≤ v ∧ v ≤ k + 1 := by
      intro k s' hk
      rw [houtm] at hk
      have := resolvedOf_bounds hnum htagH hnodup p.method.length 0 k s' hk
      rw [execCnt_zero] at this
      simpa using this
    constructor
    · apply List.all_eq_true.mpr
      intro s hs
      rcases List.mem_iff_getElem?.mp hs with ⟨k, hk⟩
      rw [(hprops k s hk).1]
      rfl
    · apply List.all_eq_true.mpr
      rintro ⟨k, s⟩ hmem
      have hk : out.method[k]? = some s := List.mk_mem_enum_iff_getElem?.mp hmem
      obtain ⟨hnt, hloop⟩ := hprops k s hk
      cases s with
      | tag id name => simp [AnyTechnique.isTagStep] at hnt
      | loop id lt c =>
        rcases hloop id lt c rfl with ⟨v, rfl, h1, h2⟩
        simp only [AnyTechnique.isTagStep, Bool.not_false, Bool.true_and,
          Bool.and_eq_true, decide_eq_true_eq]
        constructor
        · exact_mod_cast h1
        · omega
      | openCircuitVoltage id u => rfl
      | constantCurrent id a b c d => rfl
      | constantVoltage id a b c d => rfl
      | impedanceSpectroscopy id a b c d e f g => rfl

/-- C2 (amended): for every protocol accepted by construction, after tag
resolution succeeds the resulting sequence contains no Tag steps and every
Loop target is an integer `t` with `1 ≤ t ≤` the loop's own 1-based position
in the new numbering (equality is possible — see the counterexample — so "at
most", not "strictly less than"). -/
theorem c2_resolution_postcondition (p : BaseProtocol)
    (hval : validate_loops_and_tags p.method = .ok ())
    (hpos : positiveTargets p.method = true)
    (out : BaseProtocol) (hres : tag_to_indices p = .ok out) :
    noTagSteps out.method = true ∧ resolvedBounded out.method = true :=
  tag_to_indices_postcondition p hval hpos out hres

/-- C2 witness (amended): Scenario A validates, resolves to
`[Rest, Rest, Loop(1, 3)]`, and the result is tag-free with every loop target
within its position bound. -/
theorem c2_resolution_postcondition_witness :
    noTagSteps scenarioAResolved.method = true ∧
      resolvedBounded scenarioAResolved.method = true :=
  c2_resolution_postcondition scenarioA (by decide) (by decide) scenarioAResolved (by decide)

theorem resolvedBounded_at {m' : List AnyTechnique} (hrb : resolvedBounded m' = true)
    {i : Nat} {s : AnyTechnique} (h : m'[i]? = some s) :
    s.isTagStep = false ∧ ∀ (id : Option String) lt c, s = .loop id lt c →
      ∃ t : Int, lt = .inl t ∧ 1 ≤ t ∧ t ≤ (i : Int) + 1 := by
  have hmem : ((i, s) : Nat × AnyTechnique) ∈ m'.enum := List.mk_mem_enum_iff_getElem?.mpr h
  have hall := List.all_eq_true.mp hrb _ hmem
  cases s with
  | tag id name => simp [AnyTechnique.isTagStep] at hall
  | loop id lt cnt =>
    cases lt with
    | inl t =>
      have ht : (decide (1 ≤ t) && decide (t ≤ (i : Int) + 1)) = true := by
        simpa [AnyTechnique.isTagStep] using hall
      simp only [Bool.and_eq_true, decide_eq_true_eq] at ht
      exact ⟨rfl, fun id' lt' c' heq => by
        simp only [AnyTechnique.loop.injEq] at heq
        obtain ⟨-, hlt, -⟩ := heq
        exact ⟨t, hlt.symm, ht.1, ht.2⟩⟩
    | inr a => simp [AnyTechnique.isTagStep] at hall
  | openCircuitVoltage id u => exact ⟨rfl, fun id' lt' c' heq => by cases heq⟩
  | constantCurrent id a b c d => exact ⟨rfl, fun id' lt' c' heq => by cases heq⟩
  | constantVoltage id a b c d => exact ⟨rfl, fun id' lt' c' heq => by cases heq⟩
  | impedanceSpectroscopy id a b c d e f g => exact ⟨rfl, fun id' lt' c' heq => by cases heq⟩

theorem resolvedBounded_noTags {m' : List AnyTechnique} (hrb : resolvedBounded m' = true) :
    noTagSteps m' = true := by
  apply List.all_eq_true.mpr
  intro s hs
  rcases List.mem_iff_getElem?.mp hs with ⟨k, hk⟩
  rw [(resolvedBounded_at hrb hk).1]
  rfl

/-- A resolved sequence with bounded targets is a fixed point of the
closed-form resolver. -/
theorem resolveSpecAux_fixed {m' : List AnyTechnique} (hrb : resolvedBounded m' = true) :
    ∀ (rem i : Nat), m'.length ≤ i + rem → resolveSpecAux m' rem i = .ok (m'.drop i) := by
  have hnt := resolvedBounded_noTags hrb
  intro rem
  induction rem with
  | zero =>
    intro i hlen
    rw [List.drop_eq_nil_of_le (by omega), resolveSpecAux]
  | succ rem ih =>
    intro i hlen
    cases hget : m'[i]? with
    | none =>
      have hge : m'.length ≤ i := by
        by_contra hcon
        rw [List.getElem?_eq_getElem (by omega)] at hget
        cases hget
      rw [List.drop_eq_nil_of_le hge, resolveSpecAux_succ_none hget]
    | some s =>
      have hi : i < m'.length := by
        rcases List.getElem?_eq_some.mp hget with ⟨hlt, -⟩
        exact hlt
      have hdrop : m'.drop i = s :: m'.drop (i + 1) := by
        rcases List.getElem?_eq_some.mp hget with ⟨hlt, heq⟩
        rw [List.drop_eq_getElem_cons hlt, heq]
      obtain ⟨hs_nt, hs_loop⟩ := resolvedBounded_at hrb hget
      cases s with
      | tag id name => simp [AnyTechnique.isTagStep] at hs_nt
      | loop id lt cnt =>
        rcases hs_loop id lt cnt rfl with ⟨t, rfl, h1, h2⟩
        rw [resolveSpecAux_succ_loopInl hget]
        rw [specRead_eval h1 h2 hi]
        rw [noTag_execCnt hnt (by omega)]
        rw [ih (i + 1) (by omega), hdrop]
        have hcast : (((t - 1).toNat + 1 : Nat) : Int) = t := by omega
        simp only [Except.map, hcast]
      | openCircuitVoltage id u =>
        rw [resolveSpecAux_succ_plain hget rfl rfl, ih (i + 1) (by omega), hdrop]
        rfl
      | constantCurrent id a b c d =>
        rw [resolveSpecAux_succ_plain hget rfl rfl, ih (i + 1) (by omega), hdrop]
        rfl
      | constantVoltage id a b c d =>
        rw [resolveSpecAux_succ_plain hget rfl rfl, ih (i + 1) (by omega), hdrop]
        rfl
      | impedanceSpectroscopy id a b c d e f g =>
        rw [resolveSpecAux_succ_plain hget rfl rfl, ih (i + 1) (by omega), hdrop]
        rfl

/-- C6 (amended): for a protocol accepted by construction, tag resolution is
idempotent — applying `tag_to_indices` to a successful resolution's output
returns that output unchanged.  (Without the construction-validity premise
this fails; see the counterexample.) -/
theorem c6_tag_resolution_idempotent (p : BaseProtocol)
    (hval : validate_loops_and_tags p.method = .ok ())
    (hpos : positiveTargets p.method = true)
    (out : BaseProtocol) (hres : tag_to_indices p = .ok out) :
    tag_to_indices out = .ok out := by
  obtain ⟨-, hrb⟩ := tag_to_indices_postcondition p hval hpos out hres
  rw [tag_to_indices_eq_spec out, resolveSpecAux_fixed hrb out.method.length 0 (by omega)]
  rw [List.drop_zero]
  rfl

/-- C6 witness: Scenario A resolves to `[Rest, Rest, Loop(1, 3)]`, and
resolving that output again returns it unchanged. -/
theorem c6_tag_resolution_idempotent_witness :
    tag_to_indices scenarioAResolved = .ok scenarioAResolved :=
  c6_tag_resolution_idempotent scenarioA (by decide) (by decide) scenarioAResolved (by decide)

theorem firstNonTagIdx_spec :
    ∀ (l : List AnyTechnique) (k : Nat), firstNonTagIdx l = some k →
      (∃ s', l[k]? = some s' ∧ s'.isTagStep = false) ∧
      ∀ x, x < k → ∀ sx, l[x]? = some sx → sx.isTagStep = true := by
  intro l
  induction l with
  | nil => intro k h; cases h
  | cons s rest ih =>
    intro k h
    rw [firstNonTagIdx] at h
    by_cases hs : s.isTagStep
    · rw [if_pos hs] at h
      cases hk : firstNonTagIdx rest with
      | none => rw [hk] at h; cases h
      | some k' =>
        rw [hk] at h
        simp only [Option.map_some', Option.some.injEq] at h
        subst h
        obtain ⟨⟨s', hs', hnt⟩, hbefore⟩ := ih k' hk
        refine ⟨⟨s', by simpa using hs', hnt⟩, ?_⟩
        intro x hx sx hsx
        cases x with
        | zero =>
          simp only [List.getElem?_cons_zero, Option.some.injEq] at hsx
          subst hsx
          exact hs
        | succ x =>
          simp only [List.getElem?_cons_succ] at hsx
          exact hbefore x (by omega) sx hsx
    · rw [if_neg hs] at h
      cases h
      exact ⟨⟨s, by simp, by simpa using hs⟩, fun x hx => by omega⟩

theorem firstNonTagIdx_isSome :
    ∀ (l : List AnyTechnique) (k : Nat) (s : AnyTechnique), l[k]? = some s →
      s.isTagStep = false → ∃ k', firstNonTagIdx l = some k' ∧ k' ≤ k := by
  intro l
  induction l with
  | nil => intro k s h; cases h
  | cons hd rest ih =>
    intro k s h hnt
    rw [firstNonTagIdx]
    by_cases hhd : hd.isTagStep
    · rw [if_pos hhd]
      cases k with
      | zero =>
        simp only [List.getElem?_cons_zero, Option.some.injEq] at h
        subst h
        rw [hhd] at hnt
        cases hnt
      | succ k =>
        simp only [List.getElem?_cons_succ] at h
        rcases ih k s h hnt with ⟨k', hk', hle⟩
        exact ⟨k' + 1, by rw [hk']; rfl, by omega⟩
    · rw [if_neg hhd]
      exact ⟨0, rfl, by omega⟩

theorem firstNonTagAfter_exists {m : List AnyTechnique} {i ℓ : Nat} {s : AnyTechnique}
    (hiℓ : i < ℓ) (hℓ : m[ℓ]? = some s) (hs : s.isTagStep = false) :
    ∃ j, firstNonTagAfter m i = some j ∧ i < j ∧ j ≤ ℓ ∧
      (∃ s', m[j]? = some s' ∧ s'.isTagStep = false) ∧
      ∀ x, i < x → x < j → ∀ sx, m[x]? = some sx → sx.isTagStep = true := by
  have hdropg : (m.drop (i + 1))[ℓ - (i + 1)]? = some s := by
    rw [List.getElem?_drop]
    rw [show i + 1 + (ℓ - (i + 1)) = ℓ by omega]
    exact hℓ
  rcases firstNonTagIdx_isSome _ _ _ hdropg hs with ⟨k', hk', hle⟩
  obtain ⟨⟨s', hs', hnt'⟩, hbefore⟩ := firstNonTagIdx_spec _ _ hk'
  refine ⟨i + 1 + k', by rw [firstNonTagAfter, hk']; rfl, by omega, by omega, ?_, ?_⟩
  · rw [List.getElem?_drop] at hs'
    exact ⟨s', hs', hnt'⟩
  · intro x hx1 hx2 sx hsx
    have hxd : (m.drop (i + 1))[x - (i + 1)]? = some sx := by
      rw [List.getElem?_drop, show i + 1 + (x - (i + 1)) = x by omega]
      exact hsx
    exact hbefore (x - (i + 1)) (by omega) sx hxd

theorem resolvedOf_get_nonTag {m : List AnyTechnique} :
    ∀ (rem i ℓ : Nat), i ≤ ℓ → ℓ < m.length → m.length ≤ i + rem →
      ∀ s, m[ℓ]? = some s → s.isTagStep = false →
      (resolvedOf m rem i)[execCnt m ℓ - execCnt m i]? = some (rewriteAt m ℓ s) := by
  intro rem
  induction rem with
  | zero => intro i ℓ hiℓ hℓ hlen s hg hnt; omega
  | succ rem ih =>
    intro i ℓ hiℓ hℓ hlen s hg hnt
    cases hget : m[i]? with
    | none =>
      rcases List.getElem?_eq_some.mp hg with ⟨hlt, -⟩
      rw [List.getElem?_eq_none_iff] at hget
      omega
    | some si =>
      rcases (by omega : i = ℓ ∨ i < ℓ) with rfl | hlt
      · rw [hget] at hg
        cases hg
        rw [resolvedOf_succ_other hget hnt, Nat.sub_self]
        simp
      · by_cases hsi : si.isTagStep
        · cases si with
          | tag idt namet =>
            rw [resolvedOf_succ_tag hget]
            have hcnt : execCnt m (i + 1) = execCnt m i := by
              rw [execCnt_succ hget]; rfl
            have := ih (i + 1) ℓ (by omega) hℓ (by omega) s hg hnt
            rw [hcnt] at this
            exact this
          | openCircuitVoltage id u => simp [AnyTechnique.isTagStep] at hsi
          | constantCurrent id a b c d => simp [AnyTechnique.isTagStep] at hsi
          | constantVoltage id a b c d => simp [AnyTechnique.isTagStep] at hsi
          | impedanceSpectroscopy id a b c d e f g => simp [AnyTechnique.isTagStep] at hsi
          | loop id lt cnt => simp [AnyTechnique.isTagStep] at hsi
        · have hsi' : si.isTagStep = false := by simpa using hsi
          rw [resolvedOf_succ_other hget hsi']
          have hcnt : execCnt m (i + 1) = execCnt m i + 1 := by
            rw [execCnt_succ hget, hsi']
            simp
          have hle : execCnt m (i + 1) ≤ execCnt m ℓ := execCnt_mono m (by omega)
          have hidx : execCnt m ℓ - execCnt m i = (execCnt m ℓ - execCnt m (i + 1)) + 1 := by
            omega
          rw [hidx]
          simp only [List.getElem?_cons_succ]
          exact ih (i + 1) ℓ (by omega) hℓ (by omega) s hg hnt

/-- C10: during tag resolution, a numeric backward loop target whose 1-based
pre-resolution position points at a Tag step is rewritten to the new position
of the first executable (non-Tag) step following that tag: the old-to-new map
assigns a Tag entry the same new position as the next executable step, so
numeric targets landing on tags stay well-defined instead of failing. -/
theorem c10_numeric_target_on_tag (p : BaseProtocol)
    (ℓ : Nat) (id : Option String) (t : Int) (c : Nat)
    (hloop : p.method[ℓ]? = some (.loop id (.inl t) c))
    (h1 : 1 ≤ t) (h2 : t ≤ (ℓ : Int))
    (idt : Option String) (name : String)
    (htag : p.method[(t - 1).toNat]? = some (.tag idt name))
    (out : BaseProtocol) (hres : tag_to_indices p = .ok out) :
    ∃ j, firstNonTagAfter p.method ((t - 1).toNat) = some j ∧
      out.method[execCnt p.method ℓ]? =
        some (.loop id (.inl ((newPos p.method j : Nat) : Int)) c) := by
  have hℓlen : ℓ < p.method.length := by
    rcases List.getElem?_eq_some.mp hloop with ⟨hlt, -⟩
    exact hlt
  have hloopnt : (AnyTechnique.loop id (.inl t) c).isTagStep = false := rfl
  rcases firstNonTagAfter_exists (show (t - 1).toNat < ℓ by omega) hloop hloopnt with
    ⟨j, hj, hjgt, hjle, ⟨sj, hsj, hsjnt⟩, hbetween⟩
  refine ⟨j, hj, ?_⟩
  rw [tag_to_indices_eq_spec] at hres
  cases hspec : resolveSpecAux p.method p.method.length 0 with
  | error e => rw [hspec] at hres; cases hres
  | ok m' =>
    rw [hspec] at hres
    simp only [Except.map, Except.ok.injEq] at hres
    have houtm : out.method = resolvedOf p.method p.method.length 0 := by
      rw [← hres, ← resolveSpecAux_ok_eq _ _ _ hspec]
    rw [houtm]
    have hcorr := resolvedOf_get_nonTag p.method.length 0 ℓ (by omega) hℓlen (by omega)
      _ hloop hloopnt
    rw [execCnt_zero, Nat.sub_zero] at hcorr
    rw [hcorr, rewriteAt_loopInl]
    rw [specRead_eval h1 (by omega) hℓlen, Option.getD_some]
    have htweens : ∀ x, (t - 1).toNat ≤ x → x < j → ∀ sx, p.method[x]? = some sx →
        sx.isTagStep = true := by
      intro x hx1 hx2 sx hsx
      rcases (by omega : x = (t - 1).toNat ∨ (t - 1).toNat < x) with rfl | hgt
      · rw [htag] at hsx
        cases hsx
        rfl
      · exact hbetween x hgt hx2 sx hsx
    have hcongr : execCnt p.method j = execCnt p.method ((t - 1).toNat) :=
      execCnt_congr_of_tags (by omega) htweens
    have hnp : newPos p.method j = execCnt p.method ((t - 1).toNat) + 1 := by
      unfold newPos
      rw [execCnt_succ hsj]
      simp only [hsjnt, Bool.false_eq_true, if_false]
      rw [hcongr]
    rw [hnp]

/-- Appending a fresh cell to the heap leaves every existing cell readable
unchanged. -/
theorem append_frame (h : Heap) (p : BaseProtocol) {i : Nat} (hi : i < h.length) :
    (h ++ [p])[i]? = h[i]? := by
  rw [List.getElem?_append, if_pos hi]

/-- Writing a heap cell other than `i` leaves cell `i` unchanged. -/
theorem set_frame (l : Heap) (k : Nat) (q : BaseProtocol) {i : Nat} (hik : i ≠ k) :
    (l.set k q)[i]? = l[i]? :=
  List.getElem?_set_ne (fun hk => hik hk.symm)

/-- C7: none of the three exporters mutates any pre-existing heap cell — in
particular the caller's protocol object (its method list, every loop target)
reads back unchanged after the call, because each exporter deep-copies its
argument into a fresh cell and resolution/overrides write only that copy. -/
theorem c7_conversions_do_not_mutate_caller (h : Heap) (i : Nat) (hi : i < h.length)
    (render : AnyTechnique → String) (r : Nat)
    (α : Type) (build : List BTask → List AnyTechnique → Option Rat → Except PyErr α)
    (rb : Nat) (cap : Option Rat)
    (τ : Type) (renderT : RecordParams → AnyTechnique → Except PyErr τ)
    (rt : Nat) (sn : Option String) (capT : Option Rat) :
    ((to_pybamm_experiment_ref render h r).1)[i]? = h[i]? ∧
    ((to_battinfo_jsonld_ref build h rb cap).1)[i]? = h[i]? ∧
    ((to_tomato_mpg2_ref renderT h rt sn capT).1)[i]? = h[i]? := by
  have hfr : ∀ (p q : BaseProtocol), ((h ++ [p]).set h.length q)[i]? = h[i]? := by
    intro p q
    exact (set_frame _ _ _ (by omega)).trans (append_frame h p hi)
  have hfr2 : ∀ (p q q' : BaseProtocol),
      (((h ++ [p]).set h.length q).set h.length q')[i]? = h[i]? := by
    intro p q q'
    exact (set_frame _ _ _ (by omega)).trans (hfr p q)
  refine ⟨?_, ?_, ?_⟩
  · unfold to_pybamm_experiment_ref
    split
    · rfl
    · dsimp only
      repeat' split
      all_goals first
        | rfl
        | exact append_frame h _ hi
        | exact hfr _ _
  · unfold to_battinfo_jsonld_ref
    split
    · rfl
    · dsimp only
      repeat' split
      all_goals first
        | rfl
        | exact append_frame h _ hi
        | exact hfr _ _
        | exact hfr2 _ _ _
  · unfold to_tomato_mpg2_ref
    split
    · rfl
    · dsimp only
      repeat' split
      all_goals first
        | rfl
        | exact append_frame h _ hi
        | exact hfr _ _
        | exact hfr2 _ _ _

/-- Witness for C7: a one-cell heap holding Scenario A; all three exporters
leave cell 0 holding exactly `scenarioA`. -/
theorem c7_conversions_do_not_mutate_caller_witness :
    (0 < ([scenarioA] : Heap).length) ∧
    ((to_pybamm_experiment_ref (fun s => s.stepName) [scenarioA] 0).1)[0]? =
        ([scenarioA] : Heap)[0]? ∧
    ((to_battinfo_jsonld_ref (fun o m c => .ok (o, m, c)) [scenarioA] 0 none).1)[0]? =
        ([scenarioA] : Heap)[0]? ∧
    ((to_tomato_mpg2_ref (fun rec s => .ok (rec, s)) [scenarioA] 0 none none).1)[0]? =
        ([scenarioA] : Heap)[0]? :=
  ⟨by decide,
   c7_conversions_do_not_mutate_caller [scenarioA] 0 (by decide)
     (fun s => s.stepName) 0
     (List BTask × List AnyTechnique × Option Rat) (fun o m c => .ok (o, m, c)) 0 none
     (RecordParams × AnyTechnique) (fun rec s => .ok (rec, s)) 0 none none⟩

/-- Witness for C10: in `tagLandingProtocol` the loop at index 3 targets
1-based position 2, which is the Tag "a"; resolution succeeds and the loop's
target is rewritten to the new position of the first non-Tag step after the
tag (here that step is the loop itself at old index 3, new position 2). -/
theorem c10_numeric_target_on_tag_witness :
    ∃ j, firstNonTagAfter tagLandingProtocol.method ((2 - 1 : Int)).toNat = some j ∧
      ({ record := { time_s := 1 },
         method := [.openCircuitVoltage none 1, .loop none (.inl 2) 5] } :
           BaseProtocol).method[execCnt tagLandingProtocol.method 3]? =
        some (.loop none (.inl ((newPos tagLandingProtocol.method j : Nat) : Int)) 5) :=
  c10_numeric_target_on_tag tagLandingProtocol 3 none 2 5 (by rfl) (by decide) (by decide)
    none "a" (by rfl) _ (by rfl)

end Unicycler
